import Mathlib

/-!
Verification of the fragment lifecycle and change-notification engine of
Codestrates-v2 against its natural-language specification.

The definitions below are a shallow embedding of `Fragment` (the base class
for all code fragments, `src/unnamed/part_003`).  Text is modelled as
`List Char`, DOM nodes as numeric identifiers, and the pieces of mutable
per-fragment state that the claims touch are threaded explicitly.
-/

namespace Cs

/-! ## Diff spans and patches (external diff engine interface)

`Fragment.mutationCallback` feeds `(oldValue, newValue)` to
`dmp.patch_make` (google diff-match-patch, an external library loaded as a
global) and walks the resulting patch list.  A diff span is one entry of
`patch.diffs`: the tags mirror `DIFF_EQUAL` / `DIFF_INSERT` / `DIFF_DELETE`.
-/

/-- One span of a diff, as stored in `patch.diffs` of the external diff
engine: an equality, an insertion or a deletion. -/
inductive DiffSpan
  | eq (t : List Char)
  | ins (t : List Char)
  | del (t : List Char)
deriving DecidableEq

/-- A patch object as consumed by `Fragment.mutationCallback`
(part_003 lines 159-178): the handler reads only `patch.start1` and
`patch.diffs`. -/
structure Patch where
  start1 : Nat
  diffs : List DiffSpan
deriving DecidableEq

/-- The old-text side of a diff script: concatenation of the equal and
delete spans. -/
def srcText : List DiffSpan → List Char
  | [] => []
  | .eq t :: d => t ++ srcText d
  | .ins _ :: d => srcText d
  | .del t :: d => t ++ srcText d

/-- The new-text side of a diff script: concatenation of the equal and
insert spans. -/
def dstText : List DiffSpan → List Char
  | [] => []
  | .eq t :: d => t ++ dstText d
  | .ins t :: d => t ++ dstText d
  | .del _ :: d => dstText d

/-- Modelled from the spec: the diff engine (`dmp.patch_make`) is an external
library, not part of this repository.  The spec's DiffEngine contract
(spec 4.1: applying the ops in order transforms `oldText` into `newText`)
together with the library's documented rolling-context patch format (each
patch's coordinates are stated against the text with all previous patches
already applied) characterise a patch list for `(a, b)` as follows: each
patch replaces, at offset `start1` of the current text, the region spelled
by the equal/delete spans of its `diffs` with the equal/insert side, and
after all patches the text equals `b`. -/
def patchChainOk : List Char → List Char → List Patch → Bool
  | a, b, [] => a == b
  | a, b, p :: ps =>
      let s := srcText p.diffs
      (decide (p.start1 + s.length ≤ a.length) &&
        (s == (a.drop p.start1).take s.length)) &&
      patchChainOk
        (a.take p.start1 ++ dstText p.diffs ++ a.drop (p.start1 + s.length))
        b ps

/-- A text operation as delivered to the registered insert/delete callbacks
(`insertDeleteCallback`, part_003 lines 99-118): a position and a value. -/
inductive TextOp
  | ins (pos : Nat) (val : List Char)
  | del (pos : Nat) (val : List Char)
deriving DecidableEq

/-- Application semantics stated by the claim: inserting `val` at `pos` for
an insert, removing `val.length` characters at `pos` for a delete. -/
def applyTextOp (s : List Char) : TextOp → List Char
  | .ins pos val => s.take pos ++ val ++ s.drop pos
  | .del pos val => s.take pos ++ s.drop (pos + val.length)

/-- Apply a sequence of text operations in emission order. -/
def applyTextOps (ops : List TextOp) (s : List Char) : List Char :=
  ops.foldl applyTextOp s

/-- The per-patch emission loop of `mutationCallback`
(part_003 lines 160-177): starting from `offset = patch.start1`, an insert
span fires an insert callback at `offset` and advances the offset by its
length, a delete span fires a delete callback at `offset` without advancing,
and an equal span only advances the offset. -/
def emitPatch : Nat → List DiffSpan → List TextOp
  | _, [] => []
  | offset, .ins t :: d => .ins offset t :: emitPatch (offset + t.length) d
  | offset, .del t :: d => .del offset t :: emitPatch offset d
  | offset, .eq t :: d => emitPatch (offset + t.length) d

/-- The outer patch loop of `mutationCallback` (part_003 lines 159-178):
every patch is walked from its own `start1`. -/
def emitPatches : List Patch → List TextOp
  | [] => []
  | p :: ps => emitPatch p.start1 p.diffs ++ emitPatches ps

/-- A concrete diff engine satisfying the spec contract, used to build
closed witnesses: replace the whole old text by the whole new text. -/
def trivialPatchMake (a b : List Char) : List Patch :=
  if a == b then [] else [⟨0, [DiffSpan.del a, DiffSpan.ins b]⟩]

/-! ## The mutation pipeline (`Fragment.mutationCallback`)

DOM nodes are numeric identifiers.  A mutation record carries the fields
`mutationCallback` reads: `type`, `attributeName`, `target`, `oldValue`.
The per-target `characterDataAlreadyHandled` expando flag that the source
stores on the node itself is modelled as the list of marked node ids.
-/

/-- The `context` argument of `triggerFragmentChanged`: either the fragment
itself (`this`, the default used by `mutationCallback`) or a caller-supplied
context object (as in `executeObserverless`). -/
inductive CtxTag
  | selfCtx
  | custom (n : Nat)
deriving DecidableEq

/-- An observable callback delivery: a text insert/delete callback
(`insertDeleteCallback`), the auto-changed hook (`onAutoChanged`), the
class-changed hook (`onClassChanged`), or the generic fragment-changed
notification (`triggerFragmentChanged`) with its context. -/
inductive Ev
  | text (op : TextOp)
  | autoChanged
  | clsChanged
  | fragmentChanged (context : CtxTag)
deriving DecidableEq

/-- A mutation record as consumed by `mutationCallback`: an `attributes`
record (with attribute name and target node), a `characterData` record
(with target node and captured old value; the new value is read off the
node at processing time), or a `childList` record. -/
inductive MRec
  | attr (attributeName : String) (target : Nat)
  | characterData (target : Nat) (oldValue : List Char)
  | childList
deriving DecidableEq

/-- The fragment-side environment `mutationCallback` reads: the fragment's
root node (`this.html[0]`), whether that root is attached to the document
(`this.html[0].parentNode != null`), the current `nodeValue` of every node,
and the external diff engine. -/
structure FragEnv where
  root : Nat
  attached : Bool
  nodeValue : Nat → List Char
  patchMake : List Char → List Char → List Patch

/-- The loop state of one `mutationCallback` invocation: the per-target
`characterDataAlreadyHandled` markers, the `characterDataTargets` list, the
batch-wide `sendUpdateCallback` flag, and the callbacks delivered so far. -/
structure BatchState where
  handled : List Nat
  cdTargets : List Nat
  send : Bool
  events : List Ev
deriving DecidableEq

/-- One iteration of the `mutations.forEach` loop in `mutationCallback`
(part_003 lines 132-182).  For an `attributes` record the flag is first set
and then overridden to `false` when the record is the `auto` or `class`
attribute on the fragment's own root (those fire `onAutoChanged` /
`onClassChanged` instead); the net effect per record is modelled directly.
A `characterData` record is skipped when its target is already marked,
otherwise it marks the target, records it for the end-of-batch reset, sets
the flag and emits the diff ops between the captured old value and the
node's current value.  A `childList` record sets the flag. -/
def processRecord (env : FragEnv) (st : BatchState) : MRec → BatchState
  | .attr name target =>
      if name == "auto" && target == env.root then
        { st with send := false, events := st.events ++ [.autoChanged] }
      else if name == "class" && target == env.root then
        { st with send := false, events := st.events ++ [.clsChanged] }
      else
        { st with send := true }
  | .characterData target old =>
      if st.handled.contains target then st
      else
        { handled := target :: st.handled,
          cdTargets := st.cdTargets ++ [target],
          send := true,
          events := st.events ++
            (emitPatches (env.patchMake old (env.nodeValue target))).map Ev.text }
  | .childList => { st with send := true }

/-- `Fragment.mutationCallback` (part_003 lines 125-193): fold the batch
through `processRecord`, clear the `characterDataAlreadyHandled` marker of
every recorded target, and fire the generic fragment-changed notification
once (with the fragment itself as context) when the root is still attached
and the batch flag is set.  Returns the final marker set and the delivered
callbacks in order. -/
def mutationCallback (env : FragEnv) (handled0 : List Nat) (mutations : List MRec) :
    List Nat × List Ev :=
  let st := mutations.foldl (processRecord env) ⟨handled0, [], false, []⟩
  (st.handled.filter (fun t => !st.cdTargets.contains t),
   st.events ++ if env.attached && st.send then [.fragmentChanged .selfCtx] else [])

/-- A record whose processing overrides the batch flag to `false`: an
`attributes` record for `auto` or `class` on the fragment's own root. -/
def isSuppressor (root : Nat) : MRec → Bool
  | .attr name target => (name == "auto" || name == "class") && target == root
  | _ => false

/-- A record that unconditionally sets the batch flag: a `childList`
record, or an `attributes` record that is not a suppressor. -/
def alwaysRequires (root : Nat) : MRec → Bool
  | .attr name target => !((name == "auto" || name == "class") && target == root)
  | .characterData _ _ => false
  | .childList => true

/-- Number of generic fragment-changed notifications in a delivery list. -/
def changedCount (evs : List Ev) : Nat :=
  evs.countP (fun e => match e with | .fragmentChanged _ => true | _ => false)

/-- The insert/delete callbacks contained in a delivery list, in order. -/
def textOpsOf (evs : List Ev) : List TextOp :=
  evs.filterMap (fun e => match e with | .text op => some op | _ => none)

/-! ## Observer suspension (`stopObserver` / `startObserver` /
`executeObserverless`)

The per-fragment mutable state relevant to the observer-pause helper: the
raw text content, the queue of mutation records the observer has buffered
but not yet delivered, whether the observer is connected, the marker set and
the callbacks delivered so far.  A JavaScript exception is modelled as an
`Except.error` carrying the error and the heap state at throw time (JS
exceptions do not roll back heap mutations). -/

/-- A JavaScript runtime error: the `TypeError` raised by a member access on
`null`, or an exception thrown by user code. -/
inductive JsError
  | typeError
  | userThrown (n : Nat)
deriving DecidableEq

/-- The fragment state threaded through the observer-scope model. -/
structure FragState where
  root : Nat
  attached : Bool
  raw : List Char
  handled : List Nat
  pending : List MRec
  observing : Bool
  events : List Ev
deriving DecidableEq

/-- The `FragEnv` view of a fragment state.  The fragment's observed text
content lives in its single text child (`getTextContentNode` /
`checkTextContentNode`), so every characterData target reads the current
raw value. -/
def envOf (pm : List Char → List Char → List Patch) (st : FragState) : FragEnv :=
  { root := st.root, attached := st.attached,
    nodeValue := fun _ => st.raw, patchMake := pm }

/-- The `raw` setter (part_003 lines 315-321) together with the
MutationObserver contract: writing the text content replaces the node value
and, when the observer is connected, queues a characterData record that
captures the old value. -/
def setRaw (st : FragState) (content : List Char) : FragState :=
  { st with
    raw := content,
    pending :=
      if st.observing then st.pending ++ [MRec.characterData st.root st.raw]
      else st.pending }

/-- `Fragment.stopObserver` (part_003 lines 254-266): take the buffered
records, process them through `mutationCallback` when there are any, then
disconnect. -/
def stopObserver (pm : List Char → List Char → List Patch) (st : FragState) :
    FragState :=
  let ms := st.pending
  if ms.length > 0 then
    let r := mutationCallback (envOf pm st) st.handled ms
    { st with
      pending := []
      observing := false
      handled := r.1
      events := st.events ++ r.2 }
  else
    { st with pending := [], observing := false }

/-- `Fragment.startObserver` (part_003 lines 235-247): reconnect the
observer. -/
def startObserver (st : FragState) : FragState :=
  { st with observing := true }

/-- `Fragment.triggerFragmentChanged` at the delivery level: one generic
fragment-changed notification with the given context (the per-callback
dispatch with its try/catch is modelled separately by
`triggerFragmentChanged`). -/
def triggerFragmentChangedEv (context : CtxTag) (st : FragState) : FragState :=
  { st with events := st.events ++ [.fragmentChanged context] }

/-- `Fragment.executeObserverless` (part_003 lines 275-292): stop the
observer (flushing buffered records), snapshot `raw` unless the change
check is skipped, run the method, restart the observer, and fire one
fragment-changed notification with the supplied context when the check is
skipped or the content changed.  The source has no try/finally: a throw in
`method` propagates immediately and the lines after the call never run. -/
def executeObserverless (pm : List Char → List Char → List Patch)
    (st : FragState) (method : FragState → Except (JsError × FragState) FragState)
    (context : CtxTag) (skipChangeCheck : Bool) :
    Except (JsError × FragState) FragState :=
  let st1 := stopObserver pm st
  let before : Option (List Char) :=
    if skipChangeCheck then none else some st1.raw
  match method st1 with
  | .error e => .error e
  | .ok st2 =>
    let st3 := startObserver st2
    if skipChangeCheck || before ≠ some st3.raw then
      .ok (triggerFragmentChangedEv context st3)
    else
      .ok st3

/-! ## Handler registration and unload (`registerOn*Handler` disposers,
`unRegisterOnFragmentChangedHandler`, `unload`)

Callbacks are identified by numeric ids.  `Array.prototype.indexOf` returns
`-1` when the element is absent, and `Array.prototype.splice` interprets a
negative start as counting from the end of the array. -/

/-- JavaScript `Array.prototype.indexOf`: first index of the element, or
`-1` when absent. -/
def jsIndexOf (l : List Nat) (x : Nat) : Int :=
  match l with
  | [] => -1
  | a :: l' => if a == x then 0 else
      match jsIndexOf l' x with
      | -1 => -1
      | i => i + 1

/-- JavaScript `Array.prototype.splice(start, deleteCount)` restricted to
deletion: a negative `start` counts from the end of the array (clamped at
0), a non-negative one is clamped at the length. -/
def jsSplice (l : List Nat) (start : Int) (deleteCount : Nat) : List Nat :=
  let s : Nat :=
    if start < 0 then (start + l.length).toNat
    else min start.toNat l.length
  l.take s ++ l.drop (s + deleteCount)

/-- `Fragment.unRegisterOnFragmentChangedHandler` (part_003 lines 370-372),
which is also the body of every disposer returned by the `register*`
functions: `splice(indexOf(callback), 1)` on the callback list. -/
def unRegisterOnFragmentChangedHandler (cbs : List Nat) (cb : Nat) : List Nat :=
  jsSplice cbs (jsIndexOf cbs cb) 1

/-- The fragment state relevant to `unload`: the registered unloaded
callbacks, the `this.html` reference (`none` after it has been nulled), the
node's `data("Fragment")` link, and the log of unload-callback firings. -/
structure FragLife where
  unloadedCallbacks : List Nat
  htmlRef : Option Nat
  dataLink : Bool
  fired : List Nat
deriving DecidableEq

/-- `Fragment.unload` (part_003 lines 566-580): fire every registered
unloaded callback (the callback list is never cleared), stop the observer
(harmless on an already-disconnected observer), then access `this.html` to
sever the node link and null the reference.  When `this.html` is already
`null` the member access throws a `TypeError`; the callbacks have fired by
then. -/
def unload (st : FragLife) : Except (JsError × FragLife) FragLife :=
  let st1 := { st with fired := st.fired ++ st.unloadedCallbacks }
  match st1.htmlRef with
  | none => .error (.typeError, st1)
  | some _ => .ok { st1 with dataLink := false, htmlRef := none }

/-! ## Fragment-changed dispatch (`triggerFragmentChanged`) -/

/-- The outcome of delivering the notification to one registered callback:
it returned, or it threw and the dispatch loop caught (and logged) the
exception. -/
inductive CbOutcome
  | ok
  | caught (e : JsError)
deriving DecidableEq

/-- `Fragment.triggerFragmentChanged` (part_003 lines 199-213): iterate a
snapshot of the registered callbacks, invoking each inside a try/catch that
only logs.  The function always returns normally — an exception never
escapes the loop — and yields one outcome per registered callback, in
registration order. -/
def triggerFragmentChanged (cbs : List (CtxTag → Except JsError Unit))
    (context : CtxTag) : List CbOutcome :=
  cbs.map (fun cb =>
    match cb context with
    | .ok _ => .ok
    | .error e => .caught e)

/-! ## The fragment registry (`Fragment.fragmentTypes`,
`Fragment.unknownFragments`, `setupFragment`, `registerFragmentType`,
`unRegisterFragmentType`, `loadUnknownFragments`, `runFragmentsLoaded`)

A `code-fragment` element is a `NodeRec`: its id, its `data-type` attribute
(`none` when absent), its raw text content, and its attached Fragment
wrapper.  The wrapper is `some isLoaded` when the node's
`data("Fragment")` link is set (`isLoaded` is the wrapper's load flag) and
`none` when no wrapper is attached.  `runFragmentsLoaded` is modelled here
by its net synchronous effect; its serialization across overlapping calls
is the subject of the scheduler model below. -/

/-- One `code-fragment` element and its (optional) Fragment wrapper. -/
structure NodeRec where
  id : Nat
  dataType : Option String
  text : List Char
  wrapper : Option Bool
deriving DecidableEq

/-- A registry-level observable: a fragment's `unload()` ran for a node, or
a fragment's `onFragmentsLoaded` hook ran for a node. -/
inductive RegEv
  | unloaded (nid : Nat)
  | hooked (nid : Nat)
deriving DecidableEq

/-- The process-wide registry state: the registered type map (as the list
of registered type ids), the unknown-fragment sets per type id, the
document's `code-fragment` nodes in document order, the `allInstalledRun`
gate, and the log of unload/hook firings. -/
structure RegState where
  fragmentTypes : List String
  unknown : String → List Nat
  nodes : List NodeRec
  allInstalledRun : Bool
  log : List RegEv

/-- Look a node up by id. -/
def findNode (st : RegState) (nid : Nat) : Option NodeRec :=
  st.nodes.find? (fun n => n.id == nid)

/-- Replace the node with the given id by its image under `f`. -/
def updateNode (st : RegState) (nid : Nat) (f : NodeRec → NodeRec) : RegState :=
  { st with nodes := st.nodes.map (fun n => if n.id == nid then f n else n) }

/-- `Fragment.saveUnknownFragment` (part_003 lines 1006-1021): add the node
to the unknown set of its type (`Set` semantics: no duplicates). -/
def saveUnknownFragment (st : RegState) (nid : Nat) (ty : String) : RegState :=
  { st with
    unknown := fun s =>
      if s == ty then
        if (st.unknown ty).contains nid then st.unknown ty
        else st.unknown ty ++ [nid]
      else st.unknown s }

/-- `Fragment.setupFragment` (part_003 lines 878-898): a no-op returning
`null` when the node already has a wrapper; when the declared type has no
registered implementation, record the node as unknown (only when it has a
declared type) and return `null`; otherwise construct and attach the new
wrapper (its load flag starts unset).  Returns the new state and the id of
the newly wrapped node, if any. -/
def setupFragment (st : RegState) (nid : Nat) : RegState × Option Nat :=
  match findNode st nid with
  | none => (st, none)
  | some n =>
    if n.wrapper.isSome then (st, none)
    else
      match n.dataType with
      | none => (st, none)
      | some ty =>
        if st.fragmentTypes.contains ty then
          (updateNode st nid (fun m => { m with wrapper := some false }), some nid)
        else
          (saveUnknownFragment st nid ty, none)

/-- A fragment's `unload()` viewed from the registry: the unloaded
callbacks fire (logged) and the node's wrapper link is severed. -/
def unloadNode (st : RegState) (nid : Nat) : RegState :=
  updateNode { st with log := st.log ++ [.unloaded nid] } nid
    (fun n => { n with wrapper := none })

/-- The body of the per-node loop of `unRegisterFragmentType`
(part_003 lines 860-870): unload the node's wrapper when present, then
re-add the node to the unknown set under the type. -/
def unRegisterStep (ty : String) (s : RegState) (nid : Nat) : RegState :=
  let s' := if ((findNode s nid).bind (fun n => n.wrapper)).isSome
            then unloadNode s nid else s
  saveUnknownFragment s' nid ty

/-- `Fragment.unRegisterFragmentType` (part_003 lines 856-871): remove the
type mapping, then for every `code-fragment` node with that declared type
(snapshot, in document order) unload its wrapper when present and re-add
the node to the unknown set under the same type. -/
def unRegisterFragmentType (st : RegState) (ty : String) : RegState :=
  let st1 := { st with fragmentTypes := st.fragmentTypes.filter (fun t => !(t == ty)) }
  ((st1.nodes.filter (fun n => n.dataType == some ty)).map (fun n => n.id)).foldl
    (unRegisterStep ty) st1

/-- One fragment of the load pass: when the node is wrapped and its load
flag unset, set the flag and run its `onFragmentsLoaded` hook (logged). -/
def runLoadStep (s : RegState) (nid : Nat) : RegState :=
  match (findNode s nid).bind (fun n => n.wrapper) with
  | some isLoaded =>
    if isLoaded then s
    else
      let s' := updateNode s nid (fun n => { n with wrapper := some true })
      { s' with log := s'.log ++ [.hooked nid] }
  | none => s

/-- `Fragment.runFragmentsLoaded` (part_003 lines 970-998) by its net
synchronous effect: when the `allInstalledRun` gate is open, every wrapped
fragment whose load flag is unset gets the flag set and its
`onFragmentsLoaded` hook run (logged), in document order. -/
def runFragmentsLoadedSync (st : RegState) : RegState :=
  if !st.allInstalledRun then st
  else (st.nodes.map (fun n => n.id)).foldl runLoadStep st

/-- One node of the unknown-promotion loop: run `setupFragment` and keep
the updated registry (the returned wrapper is dropped there). -/
def setupStep (s : RegState) (nid : Nat) : RegState :=
  (setupFragment s nid).1

/-- `Fragment.loadUnknownFragments` (part_003 lines 1028-1046): when the
type has pending unknown nodes, copy the set, clear it, run
`setupFragment` on every copied node (unhandled ones re-add themselves),
then run the load pass. -/
def loadUnknownFragments (st : RegState) (ty : String) : RegState :=
  let u := st.unknown ty
  if u.isEmpty then st
  else
    let st1 := { st with unknown := fun s => if s == ty then [] else st.unknown s }
    let st2 := u.foldl setupStep st1
    runFragmentsLoadedSync st2

/-- `Fragment.registerFragmentType` (part_003 lines 841-849): a logged
no-op when the type is already registered; otherwise add the mapping and
promote the previously unknown nodes of that type. -/
def registerFragmentType (st : RegState) (ty : String) : RegState :=
  if st.fragmentTypes.contains ty then st
  else loadUnknownFragments { st with fragmentTypes := st.fragmentTypes ++ [ty] } ty

/-! ## The load scheduler (`Fragment.runFragmentsLoaded` under cooperative
concurrency)

`runFragmentsLoaded` (part_003 lines 970-998) together with the
`wpm.onAllInstalled` hook (lines 1139-1142) is modelled as a small-step
system over cooperative tasks.  A task advances in atomic synchronous
segments; suspension points are the busy-wait `await` in the while loop and
the `await fragment.onFragmentsLoaded()` in the for loop.  Fragments are a
fixed list of wrapper ids `frags`; `loaded` is the per-wrapper `isLoaded`
flag.  The redundant `fragment.isLoaded = true` at the head of the for loop
re-sets a flag the filter already set and is dropped as a no-op. -/

/-- Scheduler log events: the one-shot `allInstalled` signal fired, a
fragment's `onFragmentsLoaded` hook started, or it completed. -/
inductive LEv
  | installed
  | hookStart (id : Nat)
  | hookEnd (id : Nat)
deriving DecidableEq

/-- The control state of one `runFragmentsLoaded` invocation:
`start` — about to run from the top; `waiting` — suspended in the
busy-wait while `currentlyLoadingFragments` is set; `inHook id rest` —
awaiting `onFragmentsLoaded` of `id` with `rest` still queued;
`done` — returned. -/
inductive Task
  | start
  | waiting
  | inHook (id : Nat) (rest : List Nat)
  | done
deriving DecidableEq

/-- The scheduler state: the `Fragment.allInstalledRun` gate, the
`Fragment.currentlyLoadingFragments` flag, the per-fragment `isLoaded`
flags, the set of in-flight invocations and the event log. -/
structure Sched where
  allInstalled : Bool
  currentlyLoading : Bool
  loaded : Nat → Bool
  tasks : List Task
  log : List LEv

/-- The fragments the filter at part_003 lines 986-990 selects: those whose
`isLoaded` flag is unset, in document order. -/
def unloadedOf (frags : List Nat) (s : Sched) : List Nat :=
  frags.filter (fun id => !s.loaded id)

/-- The effect of that filter's side effect: every visited fragment gets
its `isLoaded` flag set. -/
def markAll (frags : List Nat) (s : Sched) : Nat → Bool :=
  fun id => s.loaded id || (unloadedOf frags s).contains id

/-- The `inHook` entries among the tasks, as `(current id, queued rest)`
pairs. -/
def hookTasksL (ts : List Task) : List (Nat × List Nat) :=
  ts.filterMap (fun t =>
    match t with
    | .inHook id rest => some (id, rest)
    | _ => none)

/-- Number of `hookStart id` events in a scheduler log. -/
def sc (log : List LEv) (id : Nat) : Nat := log.count (.hookStart id)

/-- Number of `hookEnd id` events in a scheduler log. -/
def ec (log : List LEv) (id : Nat) : Nat := log.count (.hookEnd id)

/-- One atomic step of the cooperative system.  `spawn` is a discovery
batch invoking `runFragmentsLoaded`; `install` is the one-shot
`wpm.onAllInstalled` signal (it sets the gate and itself invokes
`runFragmentsLoaded`).  A `start` task returns at once when the gate is
closed, parks in the busy-wait when another pass holds
`currentlyLoadingFragments`, and otherwise atomically acquires the flag,
filters-and-marks the unloaded fragments and enters the first hook (or
releases and returns when there are none).  A parked task re-checks the
flag when it resumes.  A task inside a hook finishes it and either starts
the next hook in the same synchronous segment or releases the flag and
returns. -/
inductive Step (frags : List Nat) : Sched → Sched → Prop
  | spawn (s : Sched) :
      Step frags s { s with tasks := s.tasks ++ [.start] }
  | install (s : Sched) (h : s.allInstalled = false) :
      Step frags s
        { s with allInstalled := true, tasks := s.tasks ++ [.start],
                 log := s.log ++ [.installed] }
  | startGateClosed (s : Sched) (pre post : List Task)
      (hts : s.tasks = pre ++ .start :: post) (h : s.allInstalled = false) :
      Step frags s { s with tasks := pre ++ .done :: post }
  | startBusy (s : Sched) (pre post : List Task)
      (hts : s.tasks = pre ++ .start :: post) (hai : s.allInstalled = true)
      (hcl : s.currentlyLoading = true) :
      Step frags s { s with tasks := pre ++ .waiting :: post }
  | startAcquireEmpty (s : Sched) (pre post : List Task)
      (hts : s.tasks = pre ++ .start :: post) (hai : s.allInstalled = true)
      (hcl : s.currentlyLoading = false) (hus : unloadedOf frags s = []) :
      Step frags s { s with loaded := markAll frags s, tasks := pre ++ .done :: post }
  | startAcquireRun (s : Sched) (pre post : List Task) (id : Nat) (rest : List Nat)
      (hts : s.tasks = pre ++ .start :: post) (hai : s.allInstalled = true)
      (hcl : s.currentlyLoading = false) (hus : unloadedOf frags s = id :: rest) :
      Step frags s
        { s with loaded := markAll frags s, currentlyLoading := true,
                 tasks := pre ++ .inHook id rest :: post,
                 log := s.log ++ [.hookStart id] }
  | waitBusy (s : Sched) (pre post : List Task)
      (hts : s.tasks = pre ++ .waiting :: post) (hcl : s.currentlyLoading = true) :
      Step frags s s
  | waitAcquireEmpty (s : Sched) (pre post : List Task)
      (hts : s.tasks = pre ++ .waiting :: post)
      (hcl : s.currentlyLoading = false) (hus : unloadedOf frags s = []) :
      Step frags s { s with loaded := markAll frags s, tasks := pre ++ .done :: post }
  | waitAcquireRun (s : Sched) (pre post : List Task) (id : Nat) (rest : List Nat)
      (hts : s.tasks = pre ++ .waiting :: post)
      (hcl : s.currentlyLoading = false) (hus : unloadedOf frags s = id :: rest) :
      Step frags s
        { s with loaded := markAll frags s, currentlyLoading := true,
                 tasks := pre ++ .inHook id rest :: post,
                 log := s.log ++ [.hookStart id] }
  | hookFinishLast (s : Sched) (pre post : List Task) (id : Nat)
      (hts : s.tasks = pre ++ .inHook id [] :: post) :
      Step frags s
        { s with tasks := pre ++ .done :: post, currentlyLoading := false,
                 log := s.log ++ [.hookEnd id] }
  | hookFinishNext (s : Sched) (pre post : List Task) (id id2 : Nat) (rest : List Nat)
      (hts : s.tasks = pre ++ .inHook id (id2 :: rest) :: post) :
      Step frags s
        { s with tasks := pre ++ .inHook id2 rest :: post,
                 log := s.log ++ [.hookEnd id, .hookStart id2] }

/-- The startup state: the gate is closed (`Fragment.allInstalledRun =
false`, part_003 line 1131), no pass is in flight, no fragment is loaded,
and one invocation is pending (`Fragment.setupFragments()` at line 1137
calls `runFragmentsLoaded`). -/
def initSched : Sched :=
  { allInstalled := false, currentlyLoading := false,
    loaded := fun _ => false, tasks := [.start], log := [] }

/-- States reachable from startup under any interleaving. -/
def Reachable (frags : List Nat) (s : Sched) : Prop :=
  Relation.ReflTransGen (Step frags) initSched s

/-- The inductive invariant of the load scheduler.  `mutex`: at most one
invocation is ever inside a hook.  `notLoading`: the
`currentlyLoadingFragments` flag is the lock — when it is clear nobody is
inside a hook.  `activeHead`/`activeRest`: the running hook is the only
open one and its queue holds loaded-marked, never-started fragments, with
no duplicates (`activeNodup`).  `balanced`: every fragment that is not the
running hook has as many hook-ends as hook-starts.  `scOnce`: no
fragment's hook ever starts twice.  `notLoadedNoStart`: an unmarked
fragment has never started.  `gateClosed`: before the one-shot
`allInstalled` signal no hook has started and nobody is inside one.
`waitingGate`: a parked invocation implies the signal has fired. -/
structure SchedInv (s : Sched) : Prop where
  mutex : hookTasksL s.tasks = [] ∨ ∃ p, hookTasksL s.tasks = [p]
  notLoading : s.currentlyLoading = false → hookTasksL s.tasks = []
  activeHead : ∀ id rest, (id, rest) ∈ hookTasksL s.tasks →
    sc s.log id = ec s.log id + 1 ∧ s.loaded id = true
  activeRest : ∀ id rest, (id, rest) ∈ hookTasksL s.tasks →
    ∀ j ∈ rest, sc s.log j = 0 ∧ ec s.log j = 0 ∧ s.loaded j = true
  activeNodup : ∀ id rest, (id, rest) ∈ hookTasksL s.tasks → (id :: rest).Nodup
  balanced : ∀ id, (∀ p ∈ hookTasksL s.tasks, p.1 ≠ id) → sc s.log id = ec s.log id
  scOnce : ∀ id, sc s.log id ≤ 1
  notLoadedNoStart : ∀ id, s.loaded id = false → sc s.log id = 0
  gateClosed : s.allInstalled = false → (∀ id, sc s.log id = 0) ∧ hookTasksL s.tasks = []
  waitingGate : Task.waiting ∈ s.tasks → s.allInstalled = true

/-! ## Concrete instances used by witnesses and counterexamples -/

/-- A fragment environment whose text node currently reads `"ab"`. -/
def envAB : FragEnv :=
  { root := 0, attached := true, nodeValue := fun _ => ['a', 'b'],
    patchMake := trivialPatchMake }

/-- A fragment environment with empty text nodes. -/
def envEmpty : FragEnv :=
  { root := 0, attached := true, nodeValue := fun _ => [],
    patchMake := trivialPatchMake }

/-- A connected, idle fragment state with raw content `"a"`. -/
def stA : FragState :=
  { root := 0, attached := true, raw := ['a'], handled := [],
    pending := [], observing := true, events := [] }

/-- A registry with one registered type and one wrapped, loaded node of
that type. -/
def regA : RegState :=
  { fragmentTypes := ["text/x"],
    unknown := fun _ => [],
    nodes := [{ id := 3, dataType := some "text/x", text := ['h', 'i'],
                wrapper := some true }],
    allInstalledRun := true, log := [] }

end Cs

/-! # Theorems -/

open Cs

/-- Applying a concatenation of op sequences applies them in order. -/
theorem applyTextOps_append (l₁ l₂ : List TextOp) (s : List Char) :
    applyTextOps (l₁ ++ l₂) s = applyTextOps l₂ (applyTextOps l₁ s) := by
  simp [applyTextOps, List.foldl_append]

/-- Walking one patch's diffs from offset `pre.length` rewrites the source
region into the destination region, leaving the prefix and suffix alone. -/
theorem emitPatch_correct (d : List DiffSpan) :
    ∀ (pre rest : List Char),
      applyTextOps (emitPatch pre.length d) (pre ++ (srcText d ++ rest))
        = pre ++ (dstText d ++ rest) := by
  induction d with
  | nil => intro pre rest; rfl
  | cons hd tl ih =>
    intro pre rest
    cases hd with
    | eq t =>
      show applyTextOps (emitPatch (pre.length + t.length) tl)
          (pre ++ ((t ++ srcText tl) ++ rest)) = pre ++ ((t ++ dstText tl) ++ rest)
      have e1 : pre ++ ((t ++ srcText tl) ++ rest)
          = (pre ++ t) ++ (srcText tl ++ rest) := by simp
      have e2 : pre ++ ((t ++ dstText tl) ++ rest)
          = (pre ++ t) ++ (dstText tl ++ rest) := by simp
      have e3 : pre.length + t.length = (pre ++ t).length :=
        (List.length_append _ _).symm
      rw [e1, e2, e3]
      exact ih (pre ++ t) rest
    | ins t =>
      show applyTextOps (.ins pre.length t :: emitPatch (pre.length + t.length) tl)
          (pre ++ (srcText tl ++ rest)) = pre ++ ((t ++ dstText tl) ++ rest)
      have estep : applyTextOp (pre ++ (srcText tl ++ rest)) (.ins pre.length t)
          = (pre ++ t) ++ (srcText tl ++ rest) := by
        simp [applyTextOp, List.take_left, List.drop_left]
      have e2 : pre ++ ((t ++ dstText tl) ++ rest)
          = (pre ++ t) ++ (dstText tl ++ rest) := by simp
      have e3 : pre.length + t.length = (pre ++ t).length :=
        (List.length_append _ _).symm
      show applyTextOps (emitPatch (pre.length + t.length) tl)
          (applyTextOp (pre ++ (srcText tl ++ rest)) (.ins pre.length t))
        = pre ++ ((t ++ dstText tl) ++ rest)
      rw [estep, e2, e3]
      exact ih (pre ++ t) rest
    | del t =>
      show applyTextOps (.del pre.length t :: emitPatch pre.length tl)
          (pre ++ ((t ++ srcText tl) ++ rest)) = pre ++ (dstText tl ++ rest)
      have estep : applyTextOp (pre ++ ((t ++ srcText tl) ++ rest)) (.del pre.length t)
          = pre ++ (srcText tl ++ rest) := by
        have h1 : pre ++ ((t ++ srcText tl) ++ rest)
            = pre ++ (t ++ (srcText tl ++ rest)) := by simp
        have h2 : pre ++ ((t ++ srcText tl) ++ rest)
            = (pre ++ t) ++ (srcText tl ++ rest) := by simp
        have htake : (pre ++ ((t ++ srcText tl) ++ rest)).take pre.length = pre := by
          rw [h1]; exact List.take_left pre _
        have hdrop : (pre ++ ((t ++ srcText tl) ++ rest)).drop (pre.length + t.length)
            = srcText tl ++ rest := by
          rw [h2, ← List.length_append pre t]
          exact List.drop_left (pre ++ t) _
        simp [applyTextOp, htake, hdrop]
      show applyTextOps (emitPatch pre.length tl)
          (applyTextOp (pre ++ ((t ++ srcText tl) ++ rest)) (.del pre.length t))
        = pre ++ (dstText tl ++ rest)
      rw [estep]
      exact ih pre rest

/-- Variant of `emitPatch_correct` with the offset given as a separate
argument. -/
theorem emitPatch_correct' (d : List DiffSpan) (off : Nat) (pre rest : List Char)
    (h : off = pre.length) :
    applyTextOps (emitPatch off d) (pre ++ (srcText d ++ rest))
      = pre ++ (dstText d ++ rest) := by
  subst h
  exact emitPatch_correct d pre rest

/-- Replaying a well-formed patch chain in emission order transforms the
old text into the new text. -/
theorem patchChainOk_replay :
    ∀ (ps : List Patch) (a b : List Char),
      patchChainOk a b ps = true → applyTextOps (emitPatches ps) a = b := by
  intro ps
  induction ps with
  | nil =>
    intro a b h
    exact eq_of_beq h
  | cons p ps ih =>
    intro a b h
    simp only [patchChainOk, Bool.and_eq_true, decide_eq_true_eq] at h
    obtain ⟨⟨hle, hs⟩, hch⟩ := h
    have hsrc : (a.drop p.start1).take (srcText p.diffs).length = srcText p.diffs :=
      (eq_of_beq hs).symm
    have h1 : a.drop p.start1
        = srcText p.diffs ++ a.drop (p.start1 + (srcText p.diffs).length) := by
      conv_lhs => rw [← List.take_append_drop (srcText p.diffs).length (a.drop p.start1)]
      rw [hsrc, List.drop_drop]
    have h2 : a = a.take p.start1
        ++ (srcText p.diffs ++ a.drop (p.start1 + (srcText p.diffs).length)) := by
      conv_lhs => rw [← List.take_append_drop p.start1 a]
      rw [h1]
    have hlen : (a.take p.start1).length = p.start1 := by
      rw [List.length_take]
      exact min_eq_left (le_trans (Nat.le_add_right _ _) hle)
    have hsplit : emitPatches (p :: ps) = emitPatch p.start1 p.diffs ++ emitPatches ps :=
      rfl
    rw [hsplit, applyTextOps_append]
    have hstep : applyTextOps (emitPatch p.start1 p.diffs) a
        = a.take p.start1
          ++ (dstText p.diffs ++ a.drop (p.start1 + (srcText p.diffs).length)) := by
      conv_lhs => rw [h2]
      exact emitPatch_correct' p.diffs p.start1 (a.take p.start1)
        (a.drop (p.start1 + (srcText p.diffs).length)) hlen.symm
    rw [hstep, ← List.append_assoc]
    exact ih _ b hch

/-- C1: for a characterData mutation with old value `a` delivered to the
handler while the target currently reads `b`, the insert/delete callbacks
the handler emits, applied in emission order (insert `value` at `offset`,
remove `value.length` characters at `offset`), transform `a` into exactly
`b` — for every patch list the external diff engine can return under its
contract. -/
theorem mutationCallback_characterData_replay (env : FragEnv) (t : Nat) (old : List Char)
    (h : patchChainOk old (env.nodeValue t) (env.patchMake old (env.nodeValue t)) = true) :
    applyTextOps (textOpsOf (mutationCallback env [] [MRec.characterData t old]).2) old
      = env.nodeValue t := by
  have hmap : ∀ ops : List TextOp, textOpsOf (ops.map Ev.text) = ops := by
    intro ops
    induction ops with
    | nil => rfl
    | cons o l ih => simpa [textOpsOf] using ih
  have hev : textOpsOf (mutationCallback env [] [MRec.characterData t old]).2
      = emitPatches (env.patchMake old (env.nodeValue t)) := by
    cases hA : env.attached <;>
      simp [mutationCallback, processRecord, textOpsOf, hA, List.filterMap_append] <;>
      simpa [textOpsOf] using hmap (emitPatches (env.patchMake old (env.nodeValue t)))
  rw [hev]
  exact patchChainOk_replay _ _ _ h

/-- Counting fragment-changed notifications distributes over
concatenation. -/
theorem changedCount_append (l₁ l₂ : List Ev) :
    changedCount (l₁ ++ l₂) = changedCount l₁ + changedCount l₂ := by
  simp [changedCount, List.countP_append]

/-- Insert/delete callback deliveries are not fragment-changed
notifications. -/
theorem changedCount_map_text (ops : List TextOp) :
    changedCount (ops.map Ev.text) = 0 := by
  induction ops with
  | nil => rfl
  | cons o l ih => simp [changedCount] at ih ⊢

/-- One loop iteration never delivers a fragment-changed notification. -/
theorem processRecord_changedCount (env : FragEnv) (st : BatchState) (m : MRec) :
    changedCount (processRecord env st m).events = changedCount st.events := by
  cases m with
  | attr name target =>
    simp only [processRecord]
    split
    · simp [changedCount_append, changedCount]
    · split
      · simp [changedCount_append, changedCount]
      · rfl
  | characterData target old =>
    simp only [processRecord]
    split
    · rfl
    · simp [changedCount_append, changedCount_map_text]
  | childList => rfl

/-- Across a whole batch, the loop delivers no fragment-changed
notification. -/
theorem foldl_changedCount (env : FragEnv) (ms : List MRec) :
    ∀ st : BatchState,
      changedCount (ms.foldl (processRecord env) st).events = changedCount st.events := by
  induction ms with
  | nil => intro st; rfl
  | cons m ms ih =>
    intro st
    rw [List.foldl_cons, ih, processRecord_changedCount]

/-- Processing a record that is not a suppressor keeps the batch flag set. -/
theorem processRecord_send_true (env : FragEnv) (st : BatchState) (m : MRec)
    (hm : isSuppressor env.root m = false) (h : st.send = true) :
    (processRecord env st m).send = true := by
  cases m with
  | attr name target =>
    simp only [processRecord]
    split
    · rename_i hc
      rw [Bool.and_eq_true] at hc
      obtain ⟨h1, h2⟩ := hc
      simp [isSuppressor, h1, h2] at hm
    · split
      · rename_i hc
        rw [Bool.and_eq_true] at hc
        obtain ⟨h1, h2⟩ := hc
        simp [isSuppressor, h1, h2] at hm
      · rfl
  | characterData target old =>
    simp only [processRecord]
    split
    · exact h
    · rfl
  | childList => rfl

/-- Processing a record that unconditionally requires notification sets the
batch flag. -/
theorem processRecord_send_of_requires (env : FragEnv) (st : BatchState) (m : MRec)
    (hm : alwaysRequires env.root m = true) :
    (processRecord env st m).send = true := by
  cases m with
  | attr name target =>
    simp only [processRecord]
    split
    · rename_i hc
      rw [Bool.and_eq_true] at hc
      obtain ⟨h1, h2⟩ := hc
      simp [alwaysRequires, h1, h2] at hm
    · split
      · rename_i hc
        rw [Bool.and_eq_true] at hc
        obtain ⟨h1, h2⟩ := hc
        simp [alwaysRequires, h1, h2] at hm
      · rfl
  | characterData target old => simp [alwaysRequires] at hm
  | childList => rfl

/-- A suffix free of suppressor records keeps the batch flag set. -/
theorem foldl_send_true (env : FragEnv) (ms : List MRec) :
    ∀ st : BatchState, (∀ m ∈ ms, isSuppressor env.root m = false) → st.send = true →
      (ms.foldl (processRecord env) st).send = true := by
  induction ms with
  | nil => intro st _ h; exact h
  | cons m ms ih =>
    intro st hns h
    rw [List.foldl_cons]
    exact ih _ (fun x hx => hns x (List.mem_cons_of_mem m hx))
      (processRecord_send_true env st m (hns m (List.mem_cons_self m ms)) h)

/-- The per-target markers only ever grow during a batch. -/
theorem foldl_handled_mono (env : FragEnv) (ms : List MRec) :
    ∀ (st : BatchState) (t : Nat), t ∈ st.handled →
      t ∈ (ms.foldl (processRecord env) st).handled := by
  induction ms with
  | nil => intro st t h; exact h
  | cons m ms ih =>
    intro st t h
    rw [List.foldl_cons]
    refine ih _ t ?_
    cases m with
    | attr name target =>
      simp only [processRecord]
      split
      · exact h
      · split
        · exact h
        · exact h
    | characterData target old =>
      simp only [processRecord]
      split
      · exact h
      · exact List.mem_cons_of_mem _ h
    | childList => exact h

/-- A characterData record whose target is already marked is skipped
outright. -/
theorem processRecord_skip (env : FragEnv) (st : BatchState) (t : Nat) (o : List Char)
    (h : st.handled.contains t = true) :
    processRecord env st (.characterData t o) = st := by
  simp only [processRecord]
  rw [if_pos h]

/-- After processing a characterData record, its target is marked. -/
theorem processRecord_cd_mem (env : FragEnv) (st : BatchState) (t : Nat) (o : List Char) :
    t ∈ (processRecord env st (.characterData t o)).handled := by
  simp only [processRecord]
  split
  · rename_i h
    exact List.elem_iff.mp h
  · exact List.mem_cons_self t st.handled

/-- Every marked target was recorded for the end-of-batch reset. -/
theorem foldl_handled_sub (env : FragEnv) (ms : List MRec) :
    ∀ st : BatchState, (∀ x ∈ st.handled, x ∈ st.cdTargets) →
      ∀ x ∈ (ms.foldl (processRecord env) st).handled,
        x ∈ (ms.foldl (processRecord env) st).cdTargets := by
  induction ms with
  | nil => intro st h; exact h
  | cons m ms ih =>
    intro st h
    rw [List.foldl_cons]
    refine ih _ ?_
    cases m with
    | attr name target =>
      simp only [processRecord]
      split
      · exact h
      · split
        · exact h
        · exact h
    | characterData target old =>
      simp only [processRecord]
      split
      · exact h
      · intro x hx
        rcases List.mem_cons.mp hx with h1 | h1
        · subst h1; exact List.mem_append_right _ (List.mem_cons_self x [])
        · exact List.mem_append_left _ (h x h1)
    | childList => exact h

/-- C2 (amended): with the root attached, (i) a nonempty batch containing
no suppressor record (no `auto`/`class` attribute record on the root)
fires the generic fragment-changed notification exactly once for the whole
batch; (ii) no batch ever fires it more than once; (iii) a characterData
record whose target already had a characterData record earlier in the same
batch is skipped entirely — the whole output is as if the duplicate record
were absent, so insert/delete callbacks are emitted only for the first
record of each distinct target; (iv) the per-target markers are reset when
batch processing ends.  (The unamended claim's firing condition fails when
a suppressor record follows the requiring records, see the
counterexample.) -/
theorem mutationCallback_batch_behaviour (env : FragEnv) (hatt : env.attached = true) :
    (∀ ms : List MRec, ms ≠ [] → (∀ m ∈ ms, isSuppressor env.root m = false) →
        changedCount (mutationCallback env [] ms).2 = 1)
  ∧ (∀ ms : List MRec, changedCount (mutationCallback env [] ms).2 ≤ 1)
  ∧ (∀ (prev mid post : List MRec) (t : Nat) (o1 o2 : List Char),
        mutationCallback env []
            (prev ++ .characterData t o1 :: (mid ++ .characterData t o2 :: post))
          = mutationCallback env [] (prev ++ .characterData t o1 :: (mid ++ post)))
  ∧ (∀ ms : List MRec, (mutationCallback env [] ms).1 = []) := by
  refine ⟨?_, ?_, ?_, ?_⟩
  · intro ms hne hns
    obtain ⟨m, rest, rfl⟩ := List.exists_cons_of_ne_nil hne
    have hsend : ((m :: rest).foldl (processRecord env) ⟨[], [], false, []⟩).send = true := by
      rw [List.foldl_cons]
      refine foldl_send_true env rest _
        (fun x hx => hns x (List.mem_cons_of_mem m hx)) ?_
      have hm : isSuppressor env.root m = false := hns m (List.mem_cons_self m rest)
      cases m with
      | attr name target =>
        simp only [processRecord]
        split
        · rename_i hc
          rw [Bool.and_eq_true] at hc
          obtain ⟨h1, h2⟩ := hc
          simp [isSuppressor, h1, h2] at hm
        · split
          · rename_i hc
            rw [Bool.and_eq_true] at hc
            obtain ⟨h1, h2⟩ := hc
            simp [isSuppressor, h1, h2] at hm
          · rfl
      | characterData target old =>
        simp only [processRecord]
        split
        · rename_i hc
          simp at hc
        · rfl
      | childList => rfl
    have hcnt := foldl_changedCount env (m :: rest) ⟨[], [], false, []⟩
    simp only [mutationCallback, changedCount_append, hcnt, hatt, hsend]
    simp [changedCount]
  · intro ms
    have hcnt := foldl_changedCount env ms ⟨[], [], false, []⟩
    simp only [mutationCallback, changedCount_append, hcnt]
    split <;> simp [changedCount]
  · intro prev mid post t o1 o2
    unfold mutationCallback
    have key : ∀ st : BatchState,
        ((prev ++ .characterData t o1 :: (mid ++ .characterData t o2 :: post)).foldl
            (processRecord env) st)
          = ((prev ++ .characterData t o1 :: (mid ++ post)).foldl (processRecord env) st) := by
      intro st
      rw [List.foldl_append, List.foldl_append, List.foldl_cons, List.foldl_cons,
          List.foldl_append, List.foldl_append, List.foldl_cons]
      set st1 := processRecord env (prev.foldl (processRecord env) st) (.characterData t o1)
        with hst1
      have ht1 : t ∈ st1.handled := processRecord_cd_mem ..
      have ht2 : t ∈ (mid.foldl (processRecord env) st1).handled :=
        foldl_handled_mono env mid st1 t ht1
      rw [processRecord_skip env _ t o2 (List.elem_iff.mpr ht2)]
    rw [key]
  · intro ms
    simp only [mutationCallback]
    refine List.filter_eq_nil_iff.mpr ?_
    intro a ha
    have hsub := foldl_handled_sub env ms ⟨[], [], false, []⟩ (by intro x hx; simp at hx) a ha
    simpa using hsub

/-- Witness for C2 (amended) at a concrete batch of one childList
record. -/
theorem mutationCallback_batch_behaviour_witness :
    changedCount (mutationCallback envAB [] [MRec.childList]).2 = 1 :=
  (mutationCallback_batch_behaviour envAB rfl).1 [MRec.childList] (by decide) (by decide)

/-- C2 counterexample: the batch `[childList, class-attribute-on-root]` on
an attached fragment contains a record that requires the generic
notification (the childList record), yet the notification does not fire:
the class-attribute record overrides the batch-wide flag to `false`, so the
claimed firing condition ("fires exactly once when at least one record
requires it") is violated. -/
theorem mutationCallback_requiring_record_suppressed :
    alwaysRequires envEmpty.root MRec.childList = true
    ∧ envEmpty.attached = true
    ∧ changedCount (mutationCallback envEmpty [] [MRec.childList, MRec.attr "class" 0]).2 = 0 := by
  decide

/-- C3 (amended): an `auto`/`class` attribute record on the fragment's own
root clears the batch-wide pending-notification flag accumulated so far,
not just the flag for its own record.  With the root attached: (i) the
generic notification still fires (exactly once) when, after the last
suppressor record, some record unconditionally requires it; (ii) when the
batch ends with a suppressor record, no generic notification fires at all
— even when earlier records required one. -/
theorem mutationCallback_suppressor_clears_flag (env : FragEnv) (hatt : env.attached = true) :
    (∀ (prev post : List MRec) (srec : MRec), isSuppressor env.root srec = true →
        (∀ m ∈ post, isSuppressor env.root m = false) →
        (∃ m ∈ post, alwaysRequires env.root m = true) →
        changedCount (mutationCallback env [] (prev ++ srec :: post)).2 = 1)
  ∧ (∀ (prev : List MRec) (srec : MRec), isSuppressor env.root srec = true →
        changedCount (mutationCallback env [] (prev ++ [srec])).2 = 0) := by
  have hsupp_send : ∀ (st : BatchState) (srec : MRec), isSuppressor env.root srec = true →
      (processRecord env st srec).send = false := by
    intro st srec hs
    cases srec with
    | attr name target =>
      simp only [isSuppressor, Bool.and_eq_true, Bool.or_eq_true] at hs
      obtain ⟨h1, h2⟩ := hs
      simp only [processRecord]
      rcases h1 with h1 | h1
      · simp [h1, h2]
      · by_cases hauto : (name == "auto") = true
        · simp [hauto, h2]
        · simp only [Bool.and_eq_true] at *
          simp [hauto, h1, h2]
    | characterData target old => simp [isSuppressor] at hs
    | childList => simp [isSuppressor] at hs
  refine ⟨?_, ?_⟩
  · intro prev post srec hs hns hreq
    obtain ⟨m, hmem, hm⟩ := hreq
    obtain ⟨q1, q2, rfl⟩ := List.append_of_mem hmem
    have hsend : ((prev ++ srec :: (q1 ++ m :: q2)).foldl (processRecord env)
        ⟨[], [], false, []⟩).send = true := by
      rw [List.foldl_append, List.foldl_cons, List.foldl_append, List.foldl_cons]
      refine foldl_send_true env q2 _
        (fun x hx => hns x (List.mem_append_right _ (List.mem_cons_of_mem m hx))) ?_
      exact processRecord_send_of_requires env _ m hm
    have hcnt := foldl_changedCount env (prev ++ srec :: (q1 ++ m :: q2))
      ⟨[], [], false, []⟩
    simp only [mutationCallback, changedCount_append, hcnt, hatt, hsend]
    simp [changedCount]
  · intro prev srec hs
    have hsend : ((prev ++ [srec]).foldl (processRecord env)
        ⟨[], [], false, []⟩).send = false := by
      rw [List.foldl_append, List.foldl_cons, List.foldl_nil]
      exact hsupp_send _ srec hs
    have hcnt := foldl_changedCount env (prev ++ [srec]) ⟨[], [], false, []⟩
    simp only [mutationCallback, changedCount_append, hcnt, hsend]
    simp [changedCount]

/-- Witness for C3 (amended): a class record on the root followed by a
childList record still yields one notification; a batch ending with the
suppressor yields none. -/
theorem mutationCallback_suppressor_clears_flag_witness :
    changedCount (mutationCallback envAB []
        ([MRec.characterData 1 ['a']] ++ MRec.attr "class" 0 :: [MRec.childList])).2 = 1
    ∧ changedCount (mutationCallback envAB []
        ([MRec.characterData 1 ['a']] ++ [MRec.attr "class" 0])).2 = 0 :=
  ⟨(mutationCallback_suppressor_clears_flag envAB rfl).1
      [MRec.characterData 1 ['a']] [MRec.childList] (MRec.attr "class" 0)
      (by decide) (by decide) ⟨MRec.childList, by decide⟩,
   (mutationCallback_suppressor_clears_flag envAB rfl).2
      [MRec.characterData 1 ['a']] (MRec.attr "class" 0) (by decide)⟩

/-- C3 counterexample: a batch with a characterData change processed
earlier in the batch followed by an `auto` attribute record on the root of
an attached fragment.  The claim says the generic notification still fires
once; the code delivers the insert/delete callbacks and the auto hook but
no fragment-changed notification, because the auto record clears the
batch-wide flag. -/
theorem mutationCallback_changed_lost_after_characterData :
    (mutationCallback envAB [] [MRec.characterData 1 ['a'], MRec.attr "auto" 0]).2
      = [.text (.del 0 ['a']), .text (.ins 0 ['a', 'b']), .autoChanged]
    ∧ changedCount
        (mutationCallback envAB [] [MRec.characterData 1 ['a'], MRec.attr "auto" 0]).2 = 0 := by
  decide

/-- Witness for C1 at a concrete input: old text `"a"`, current text
`"ab"`. -/
theorem mutationCallback_characterData_replay_witness :
    patchChainOk ['a'] (envAB.nodeValue 1) (envAB.patchMake ['a'] (envAB.nodeValue 1)) = true
    ∧ applyTextOps (textOpsOf (mutationCallback envAB [] [MRec.characterData 1 ['a']]).2) ['a']
        = envAB.nodeValue 1 :=
  ⟨by decide, mutationCallback_characterData_replay envAB 1 ['a'] (by decide)⟩

/-- C4 (amended): an exception thrown by the callback passed to the
observer-pause helper propagates to the caller with the throw-time state
unchanged — the helper runs nothing after the call, so mutation observation
is NOT resumed on the throwing path (the source has no try/finally around
`method()`).  On a normal return the observer is running again when the
helper returns. -/
theorem executeObserverless_throw_behaviour (pm : List Char → List Char → List Patch)
    (st : FragState) (method : FragState → Except (JsError × FragState) FragState)
    (context : CtxTag) (skipChangeCheck : Bool) :
    (∀ (e : JsError) (st' : FragState), method (stopObserver pm st) = .error (e, st') →
        executeObserverless pm st method context skipChangeCheck = .error (e, st'))
    ∧ (∀ st2 : FragState, method (stopObserver pm st) = .ok st2 →
        ∃ st3 : FragState,
          executeObserverless pm st method context skipChangeCheck = .ok st3
            ∧ st3.observing = true) := by
  constructor
  · intro e st' h
    simp only [executeObserverless, h]
  · intro st2 h
    simp only [executeObserverless, h]
    by_cases hc : (if skipChangeCheck then (none : Option (List Char))
        else some (stopObserver pm st).raw) ≠ some (startObserver st2).raw
    · exact ⟨triggerFragmentChangedEv context (startObserver st2), by simp [hc], rfl⟩
    · cases hsk : skipChangeCheck with
      | true =>
        exact ⟨triggerFragmentChangedEv context (startObserver st2), by simp [hsk], rfl⟩
      | false =>
        rw [hsk] at hc
        have hc' := not_not.mp hc
        simp only [if_false, Bool.false_eq_true] at hc'
        exact ⟨startObserver st2, by simp [hsk, hc'], rfl⟩

/-- Witness for C4 (amended): a throwing callback on a concrete idle
fragment; the error propagates with the stopped-observer state. -/
theorem executeObserverless_throw_behaviour_witness :
    executeObserverless trivialPatchMake stA
        (fun s => .error (JsError.userThrown 5, s)) (CtxTag.custom 1) false
      = .error (JsError.userThrown 5, stopObserver trivialPatchMake stA) :=
  (executeObserverless_throw_behaviour trivialPatchMake stA
      (fun s => .error (JsError.userThrown 5, s)) (CtxTag.custom 1) false).1
    (JsError.userThrown 5) (stopObserver trivialPatchMake stA) rfl

/-- C4 counterexample: a callback that throws inside the observer-pause
helper.  The claim says observation has been resumed before the exception
reaches the caller; in the state the exception carries to the caller the
observer is still disconnected (`observing = false`). -/
theorem executeObserverless_throw_counterexample :
    executeObserverless trivialPatchMake stA
        (fun s => .error (JsError.userThrown 5, s)) (CtxTag.custom 1) false
      = .error (JsError.userThrown 5,
          { root := 0, attached := true, raw := ['a'], handled := [],
            pending := [], observing := false, events := [] })
    ∧ ({ root := 0, attached := true, raw := ['a'], handled := [],
         pending := [], observing := false, events := [] } : FragState).observing = false := by
  exact ⟨rfl, rfl⟩

/-- C6: a synchronous write inside the observer-pause helper with the
content-equality check enabled (`skipChangeCheck = false`), starting with
no buffered records.  No mutation record is queued for the write (the
observer is disconnected while it happens), so no insert/delete callbacks
are ever produced for it, and exactly one generic fragment-changed
notification carrying the caller-supplied context fires afterwards iff the
raw content differs from its value before the callback ran. -/
theorem executeObserverless_scoped_write (pm : List Char → List Char → List Patch)
    (st : FragState) (w : List Char) (context : CtxTag) (hp : st.pending = []) :
    executeObserverless pm st (fun s => .ok (setRaw s w)) context false
      = .ok { st with
              raw := w
              pending := []
              observing := true
              events := st.events ++
                if st.raw = w then [] else [.fragmentChanged context] } := by
  by_cases hw : st.raw = w
  · simp [executeObserverless, stopObserver, hp, setRaw, startObserver,
      triggerFragmentChangedEv, hw]
  · simp [executeObserverless, stopObserver, hp, setRaw, startObserver,
      triggerFragmentChangedEv, hw]

/-- Witness for C6: writing `"b"` over `"a"` in the pause scope delivers
exactly one fragment-changed notification with the supplied context and no
insert/delete callbacks. -/
theorem executeObserverless_scoped_write_witness :
    executeObserverless trivialPatchMake stA (fun s => .ok (setRaw s ['b']))
        (CtxTag.custom 2) false
      = .ok { stA with
              raw := ['b']
              pending := []
              observing := true
              events := stA.events ++
                if stA.raw = ['b'] then [] else [.fragmentChanged (CtxTag.custom 2)] } :=
  executeObserverless_scoped_write trivialPatchMake stA ['b'] (CtxTag.custom 2) rfl

/-- C5 (code bug demonstration): (i) with callbacks `[1, 2]` registered,
running the disposer of callback `1` twice removes callback `2` as well —
`indexOf` returns `-1` on the second run and `splice(-1, 1)` deletes the
last array element, so a double-dispose is not a no-op and unregisters a
still-registered callback; (ii) calling `unload()` a second time re-fires
the unload callbacks (the list is never cleared) and then throws a
`TypeError` on the nulled `this.html`. -/
theorem unload_and_disposer_not_idempotent :
    (unRegisterOnFragmentChangedHandler [1, 2] 1 = [2]
      ∧ unRegisterOnFragmentChangedHandler [2] 1 = [])
    ∧ (unload { unloadedCallbacks := [7], htmlRef := some 0, dataLink := true, fired := [] }
        = .ok { unloadedCallbacks := [7], htmlRef := none, dataLink := false, fired := [7] }
      ∧ unload { unloadedCallbacks := [7], htmlRef := none, dataLink := false, fired := [7] }
        = .error (.typeError,
            { unloadedCallbacks := [7], htmlRef := none, dataLink := false,
              fired := [7, 7] })) :=
  ⟨⟨rfl, rfl⟩, rfl, rfl⟩

/-- C10: an exception thrown by one registered fragment-changed callback is
caught inside the dispatch loop (appearing as a `caught` outcome), every
other registered callback is still invoked with its own outcome, and the
dispatch returns normally — the exception never propagates to the caller. -/
theorem triggerFragmentChanged_catches (cbs₁ cbs₂ : List (CtxTag → Except JsError Unit))
    (cb : CtxTag → Except JsError Unit) (context : CtxTag) (e : JsError)
    (h : cb context = .error e) :
    triggerFragmentChanged (cbs₁ ++ cb :: cbs₂) context
      = triggerFragmentChanged cbs₁ context
          ++ .caught e :: triggerFragmentChanged cbs₂ context := by
  simp [triggerFragmentChanged, h]

/-- Witness for C10: three callbacks, the middle one throwing; all three
are invoked and the dispatch returns the three outcomes. -/
theorem triggerFragmentChanged_catches_witness :
    triggerFragmentChanged
        ([fun _ => Except.ok ()]
          ++ (fun _ => Except.error (JsError.userThrown 3)) :: [fun _ => Except.ok ()])
        CtxTag.selfCtx
      = [.ok, .caught (JsError.userThrown 3), .ok] :=
  (triggerFragmentChanged_catches [fun _ => Except.ok ()] [fun _ => Except.ok ()]
      (fun _ => Except.error (JsError.userThrown 3)) CtxTag.selfCtx
      (JsError.userThrown 3) rfl).trans rfl

/-- C9: `setupFragment` is idempotent on a set-up node — when the node
already has a Fragment wrapper attached, a second setup call returns `null`
without constructing anything, and the registry state (hence the node's
single wrapper) is exactly what it was. -/
theorem setupFragment_idempotent (st : RegState) (nid : Nat) (w : Bool)
    (h : (findNode st nid).bind (fun n => n.wrapper) = some w) :
    setupFragment st nid = (st, none) := by
  cases hf : findNode st nid with
  | none => simp [hf] at h
  | some n =>
    simp only [hf] at h
    simp only [Option.some_bind] at h
    have hw : n.wrapper.isSome = true := by rw [h]; rfl
    simp [setupFragment, hf, hw]

/-- Witness for C9: a registry with one wrapped node; re-running setup on
it returns the registry unchanged and constructs nothing. -/
theorem setupFragment_idempotent_witness :
    setupFragment regA 3 = (regA, none) :=
  setupFragment_idempotent regA 3 true rfl

/-- Node lookup after an id-preserving per-node update. -/
theorem find?_map_update (l : List NodeRec) (nid x : Nat) (f : NodeRec → NodeRec)
    (hid : ∀ m, (f m).id = m.id) :
    (l.map (fun n => if n.id == nid then f n else n)).find? (fun n => n.id == x)
      = (l.find? (fun n => n.id == x)).map (fun n => if n.id == nid then f n else n) := by
  induction l with
  | nil => rfl
  | cons a l ih =>
    have hgid : (if a.id == nid then f a else a).id = a.id := by
      split
      · exact hid a
      · rfl
    rw [List.map_cons]
    cases ha : (a.id == x) with
    | true =>
      rw [List.find?_cons_of_pos l ha,
          List.find?_cons_of_pos (l.map fun n => if n.id == nid then f n else n)
            (show ((if a.id == nid then f a else a).id == x) = true by rw [hgid]; exact ha)]
      rfl
    | false =>
      rw [List.find?_cons_of_neg l (by simp [ha]),
          List.find?_cons_of_neg (l.map fun n => if n.id == nid then f n else n)
            (show ¬ ((if a.id == nid then f a else a).id == x) = true by
              rw [hgid, ha]; exact Bool.false_ne_true)]
      exact ih

/-- `findNode` after `updateNode` on the same or another node. -/
theorem findNode_updateNode (st : RegState) (nid x : Nat) (f : NodeRec → NodeRec)
    (hid : ∀ m, (f m).id = m.id) :
    findNode (updateNode st nid f) x
      = (findNode st x).map (fun n => if n.id == nid then f n else n) :=
  find?_map_update st.nodes nid x f hid

/-- Updating a node leaves lookups of nodes with other ids unchanged. -/
theorem findNode_updateNode_other (st : RegState) (nid x : Nat) (f : NodeRec → NodeRec)
    (hid : ∀ m, (f m).id = m.id) (hx : x ≠ nid) :
    findNode (updateNode st nid f) x = findNode st x := by
  rw [findNode_updateNode st nid x f hid]
  cases hf : findNode st x with
  | none => rfl
  | some n =>
    have hf' : st.nodes.find? (fun m => m.id == x) = some n := hf
    have hn : (n.id == x) = true := by simpa using List.find?_some hf'
    have hnn : n.id ≠ nid := by
      have hnx : n.id = x := eq_of_beq hn
      subst hnx
      exact hx
    simp [hnn]

/-- Updating a node rewrites its own lookup. -/
theorem findNode_updateNode_self (st : RegState) (nid : Nat) (f : NodeRec → NodeRec)
    (hid : ∀ m, (f m).id = m.id) (n : NodeRec) (h : findNode st nid = some n) :
    findNode (updateNode st nid f) nid = some (f n) := by
  rw [findNode_updateNode st nid nid f hid, h]
  have h' : st.nodes.find? (fun m => m.id == nid) = some n := h
  have hn : n.id = nid := eq_of_beq (by simpa using List.find?_some h')
  simp [hn]

/-- Per-node updates preserve the id list of the document. -/
theorem updateNode_ids (st : RegState) (nid : Nat) (f : NodeRec → NodeRec)
    (hid : ∀ m, (f m).id = m.id) :
    (updateNode st nid f).nodes.map NodeRec.id = st.nodes.map NodeRec.id := by
  show (st.nodes.map _).map NodeRec.id = st.nodes.map NodeRec.id
  rw [List.map_map]
  refine List.map_congr_left ?_
  intro a _
  show (if a.id == nid then f a else a).id = a.id
  split
  · exact hid a
  · rfl

/-- In a list with pairwise-distinct node ids, every member is found under
its own id. -/
theorem find?_of_mem_nodup (l : List NodeRec) (hnd : (l.map NodeRec.id).Nodup)
    (n : NodeRec) (h : n ∈ l) : l.find? (fun m => m.id == n.id) = some n := by
  induction l with
  | nil => cases h
  | cons a l ih =>
    rw [List.map_cons, List.nodup_cons] at hnd
    rcases List.mem_cons.mp h with rfl | hmem
    · exact List.find?_cons_of_pos l (by simp)
    · have hne : (a.id == n.id) = false := by
        by_cases he : a.id = n.id
        · exact absurd (he ▸ List.mem_map_of_mem NodeRec.id hmem) hnd.1
        · simpa using he
      rw [List.find?_cons_of_neg l (by simp [hne])]
      exact ih hnd.2 hmem

/-- With pairwise-distinct node ids, every node is found under its own
id. -/
theorem findNode_of_mem (st : RegState) (hnd : (st.nodes.map NodeRec.id).Nodup)
    (n : NodeRec) (h : n ∈ st.nodes) : findNode st n.id = some n :=
  find?_of_mem_nodup st.nodes hnd n h

/-- `saveUnknownFragment` adds the node (exactly once, at the end) to the
type's unknown set and changes nothing else. -/
theorem saveUnknownFragment_spec (st : RegState) (nid : Nat) (ty : String)
    (h : nid ∉ st.unknown ty) :
    (saveUnknownFragment st nid ty).unknown ty = st.unknown ty ++ [nid]
    ∧ (∀ t', t' ≠ ty → (saveUnknownFragment st nid ty).unknown t' = st.unknown t')
    ∧ (saveUnknownFragment st nid ty).nodes = st.nodes
    ∧ (saveUnknownFragment st nid ty).log = st.log
    ∧ (saveUnknownFragment st nid ty).fragmentTypes = st.fragmentTypes
    ∧ (saveUnknownFragment st nid ty).allInstalledRun = st.allInstalledRun := by
  refine ⟨?_, ?_, rfl, rfl, rfl, rfl⟩
  · simp [saveUnknownFragment, h]
  · intro t' ht'
    simp [saveUnknownFragment, ht']

/-- The per-node loop of `unRegisterFragmentType`, processing a list of
distinct, wrapped node ids not yet in the unknown set: the type map and
gate are untouched, the id list of the document is preserved, one unload
fires per node in order, every processed node lands in the unknown set
(in order) with its wrapper severed, and untouched nodes are unchanged. -/
theorem unregLoop_spec (ty : String) (ids : List Nat) :
    ∀ s : RegState,
      (∀ nid ∈ ids, ∃ n, findNode s nid = some n ∧ n.wrapper.isSome = true) →
      ids.Nodup →
      (∀ nid ∈ ids, nid ∉ s.unknown ty) →
      (ids.foldl (unRegisterStep ty) s).fragmentTypes = s.fragmentTypes
      ∧ (ids.foldl (unRegisterStep ty) s).allInstalledRun = s.allInstalledRun
      ∧ (ids.foldl (unRegisterStep ty) s).nodes.map NodeRec.id = s.nodes.map NodeRec.id
      ∧ (ids.foldl (unRegisterStep ty) s).log = s.log ++ ids.map RegEv.unloaded
      ∧ (∀ t', t' ≠ ty → (ids.foldl (unRegisterStep ty) s).unknown t' = s.unknown t')
      ∧ (ids.foldl (unRegisterStep ty) s).unknown ty = s.unknown ty ++ ids
      ∧ (∀ x, x ∉ ids → findNode (ids.foldl (unRegisterStep ty) s) x = findNode s x)
      ∧ (∀ nid ∈ ids, findNode (ids.foldl (unRegisterStep ty) s) nid
          = (findNode s nid).map (fun n => { n with wrapper := none })) := by
  induction ids with
  | nil =>
    intro s _ _ _
    exact ⟨rfl, rfl, rfl, by simp, fun _ _ => rfl, by simp, fun _ _ => rfl,
      by intro nid h; cases h⟩
  | cons nid ids ih =>
    intro s hw hnd hu
    obtain ⟨n, hfn, hws⟩ := hw nid (List.mem_cons_self nid ids)
    have hnd1 : nid ∉ ids := (List.nodup_cons.mp hnd).1
    have hnd2 : ids.Nodup := (List.nodup_cons.mp hnd).2
    have hwid : ∀ m : NodeRec, ({ m with wrapper := none } : NodeRec).id = m.id :=
      fun m => rfl
    have hstep : unRegisterStep ty s nid = saveUnknownFragment (unloadNode s nid) nid ty := by
      unfold unRegisterStep
      rw [hfn]
      simp [hws]
    have hfold : (nid :: ids).foldl (unRegisterStep ty) s
        = ids.foldl (unRegisterStep ty) (saveUnknownFragment (unloadNode s nid) nid ty) := by
      rw [List.foldl_cons, hstep]
    have hunl_unknown : (unloadNode s nid).unknown = s.unknown := rfl
    have hsu := saveUnknownFragment_spec (unloadNode s nid) nid ty
      (by rw [hunl_unknown]; exact hu nid (List.mem_cons_self nid ids))
    obtain ⟨hsu1, hsu2, hsu3, hsu4, hsu5, hsu6⟩ := hsu
    set s1 := saveUnknownFragment (unloadNode s nid) nid ty with hs1
    have hfind1 : ∀ x, findNode s1 x = findNode (unloadNode s nid) x := by
      intro x
      show (s1.nodes.find? _) = _
      rw [hsu3]
      rfl
    have hfind_other : ∀ x, x ≠ nid → findNode s1 x = findNode s x := by
      intro x hx
      rw [hfind1 x]
      exact findNode_updateNode_other _ nid x _ hwid hx
    have hfind_self : findNode s1 nid = some { n with wrapper := none } := by
      rw [hfind1 nid]
      exact findNode_updateNode_self _ nid _ hwid n hfn
    have hw' : ∀ nid' ∈ ids, ∃ m, findNode s1 nid' = some m ∧ m.wrapper.isSome = true := by
      intro nid' hmem
      have hne : nid' ≠ nid := fun he => hnd1 (he ▸ hmem)
      rw [hfind_other nid' hne]
      exact hw nid' (List.mem_cons_of_mem nid hmem)
    have hu' : ∀ nid' ∈ ids, nid' ∉ s1.unknown ty := by
      intro nid' hmem hin
      rw [hsu1, hunl_unknown] at hin
      rcases List.mem_append.mp hin with hin | hin
      · exact hu nid' (List.mem_cons_of_mem nid hmem) hin
      · have he : nid' = nid := List.mem_singleton.mp hin
        exact hnd1 (he ▸ hmem)
    obtain ⟨ih1, ih2, ih3, ih4, ih5, ih6, ih7, ih8⟩ := ih s1 hw' hnd2 hu'
    have hids1 : s1.nodes.map NodeRec.id = s.nodes.map NodeRec.id := by
      rw [hsu3]
      exact updateNode_ids _ nid _ hwid
    refine ⟨?_, ?_, ?_, ?_, ?_, ?_, ?_, ?_⟩
    · rw [hfold, ih1, hsu5]; rfl
    · rw [hfold, ih2, hsu6]; rfl
    · rw [hfold, ih3, hids1]
    · rw [hfold, ih4, hsu4]
      show (s.log ++ [RegEv.unloaded nid]) ++ ids.map RegEv.unloaded = _
      rw [List.append_assoc]
      rfl
    · intro t' ht'
      rw [hfold, ih5 t' ht', hsu2 t' ht', hunl_unknown]
    · rw [hfold, ih6, hsu1, hunl_unknown, List.append_assoc]
      rfl
    · intro x hx
      have hx1 : x ∉ ids := fun h => hx (List.mem_cons_of_mem nid h)
      have hx2 : x ≠ nid := fun h => hx (h ▸ List.mem_cons_self nid ids)
      rw [hfold, ih7 x hx1, hfind_other x hx2]
    · intro nid' hmem
      rcases List.mem_cons.mp hmem with rfl | hmem'
      · rw [hfold, ih7 nid' hnd1, hfind_self, hfn]
        rfl
      · have hne : nid' ≠ nid := fun he => hnd1 (he ▸ hmem')
        rw [hfold, ih8 nid' hmem', hfind_other nid' hne]

/-- The unknown-promotion loop over a list of distinct node ids that are
unwrapped and declare a registered type: every processed node gets a fresh
(unloaded) wrapper, nothing else changes. -/
theorem setupLoop_spec (ty : String) (ids : List Nat) :
    ∀ s : RegState, s.fragmentTypes.contains ty = true →
      (∀ nid ∈ ids, ∃ n, findNode s nid = some n ∧ n.wrapper = none
        ∧ n.dataType = some ty) →
      ids.Nodup →
      (ids.foldl setupStep s).fragmentTypes = s.fragmentTypes
      ∧ (ids.foldl setupStep s).allInstalledRun = s.allInstalledRun
      ∧ (ids.foldl setupStep s).nodes.map NodeRec.id = s.nodes.map NodeRec.id
      ∧ (ids.foldl setupStep s).log = s.log
      ∧ (ids.foldl setupStep s).unknown = s.unknown
      ∧ (∀ x, x ∉ ids → findNode (ids.foldl setupStep s) x = findNode s x)
      ∧ (∀ nid ∈ ids, findNode (ids.foldl setupStep s) nid
          = (findNode s nid).map (fun n => { n with wrapper := some false })) := by
  induction ids with
  | nil =>
    intro s _ _ _
    exact ⟨rfl, rfl, rfl, rfl, rfl, fun _ _ => rfl, by intro nid h; cases h⟩
  | cons nid ids ih =>
    intro s hty hw hnd
    obtain ⟨n, hfn, hwn, hdt⟩ := hw nid (List.mem_cons_self nid ids)
    have hnd1 : nid ∉ ids := (List.nodup_cons.mp hnd).1
    have hnd2 : ids.Nodup := (List.nodup_cons.mp hnd).2
    have hwid : ∀ m : NodeRec, ({ m with wrapper := some false } : NodeRec).id = m.id :=
      fun m => rfl
    have hstep : setupStep s nid
        = updateNode s nid (fun m => { m with wrapper := some false }) := by
      unfold setupStep setupFragment
      rw [hfn]
      simp [hwn, hdt, hty, List.elem_iff.mp hty]
    have hfold : (nid :: ids).foldl setupStep s
        = ids.foldl setupStep (updateNode s nid (fun m => { m with wrapper := some false })) := by
      rw [List.foldl_cons, hstep]
    set s1 := updateNode s nid (fun m => { m with wrapper := some false }) with hs1
    have hfind_other : ∀ x, x ≠ nid → findNode s1 x = findNode s x :=
      fun x hx => findNode_updateNode_other s nid x _ hwid hx
    have hfind_self : findNode s1 nid = some { n with wrapper := some false } :=
      findNode_updateNode_self s nid _ hwid n hfn
    have hw' : ∀ nid' ∈ ids, ∃ m, findNode s1 nid' = some m ∧ m.wrapper = none
        ∧ m.dataType = some ty := by
      intro nid' hmem
      have hne : nid' ≠ nid := fun he => hnd1 (he ▸ hmem)
      rw [hfind_other nid' hne]
      exact hw nid' (List.mem_cons_of_mem nid hmem)
    obtain ⟨ih1, ih2, ih3, ih4, ih5, ih6, ih7⟩ := ih s1 hty hw' hnd2
    have hids1 : s1.nodes.map NodeRec.id = s.nodes.map NodeRec.id :=
      updateNode_ids s nid _ hwid
    refine ⟨?_, ?_, ?_, ?_, ?_, ?_, ?_⟩
    · rw [hfold, ih1]; rfl
    · rw [hfold, ih2]; rfl
    · rw [hfold, ih3, hids1]
    · rw [hfold, ih4]; rfl
    · rw [hfold, ih5]; rfl
    · intro x hx
      have hx1 : x ∉ ids := fun h => hx (List.mem_cons_of_mem nid h)
      have hx2 : x ≠ nid := fun h => hx (h ▸ List.mem_cons_self nid ids)
      rw [hfold, ih6 x hx1, hfind_other x hx2]
    · intro nid' hmem
      rcases List.mem_cons.mp hmem with rfl | hmem'
      · rw [hfold, ih6 nid' hnd1, hfind_self, hfn]
        rfl
      · have hne : nid' ≠ nid := fun he => hnd1 (he ▸ hmem')
        rw [hfold, ih7 nid' hmem', hfind_other nid' hne]

/-- Replacing a node's wrapper field by its current value is the
identity. -/
theorem NodeRec_eta_wrapper (n : NodeRec) (w : Option Bool) (h : n.wrapper = w) :
    ({ n with wrapper := w } : NodeRec) = n := by
  rw [← h]

/-- The hook mark of the load pass, per node: a hook fires exactly for a
wrapped node whose load flag is unset. -/
def hookMark (s : RegState) (nid : Nat) : Option RegEv :=
  match (findNode s nid).bind (fun n => n.wrapper) with
  | some isLoaded => if isLoaded then none else some (RegEv.hooked nid)
  | none => none

/-- The load-pass loop over a list of distinct node ids: the registry maps
are untouched, a hook fires (in order) exactly for the wrapped, unloaded
nodes, every wrapped processed node ends with its load flag set, and
untouched nodes are unchanged. -/
theorem runLoop_spec (ids : List Nat) :
    ∀ s : RegState, ids.Nodup →
      (ids.foldl runLoadStep s).fragmentTypes = s.fragmentTypes
      ∧ (ids.foldl runLoadStep s).allInstalledRun = s.allInstalledRun
      ∧ (ids.foldl runLoadStep s).unknown = s.unknown
      ∧ (ids.foldl runLoadStep s).nodes.map NodeRec.id = s.nodes.map NodeRec.id
      ∧ (ids.foldl runLoadStep s).log = s.log ++ ids.filterMap (hookMark s)
      ∧ (∀ x, x ∉ ids → findNode (ids.foldl runLoadStep s) x = findNode s x)
      ∧ (∀ nid ∈ ids, findNode (ids.foldl runLoadStep s) nid
          = (findNode s nid).map
              (fun n => { n with wrapper := n.wrapper.map (fun _ => true) })) := by
  induction ids with
  | nil =>
    intro s _
    exact ⟨rfl, rfl, rfl, rfl, by simp, fun _ _ => rfl, by intro nid h; cases h⟩
  | cons nid ids ih =>
    intro s hnd
    have hnd1 : nid ∉ ids := (List.nodup_cons.mp hnd).1
    have hnd2 : ids.Nodup := (List.nodup_cons.mp hnd).2
    cases hb : (findNode s nid).bind (fun n => n.wrapper) with
    | none =>
      have hstep : runLoadStep s nid = s := by
        unfold runLoadStep
        rw [hb]
      have hfold : (nid :: ids).foldl runLoadStep s = ids.foldl runLoadStep s := by
        rw [List.foldl_cons, hstep]
      obtain ⟨ih1, ih2, ih3, ih4, ih5, ih6, ih7⟩ := ih s hnd2
      have hmark : hookMark s nid = none := by
        unfold hookMark
        rw [hb]
      refine ⟨?_, ?_, ?_, ?_, ?_, ?_, ?_⟩
      · rw [hfold, ih1]
      · rw [hfold, ih2]
      · rw [hfold, ih3]
      · rw [hfold, ih4]
      · rw [hfold, ih5, List.filterMap_cons, hmark]
      · intro x hx
        exact hfold ▸ ih6 x (fun h => hx (List.mem_cons_of_mem nid h))
      · intro nid' hmem
        rcases List.mem_cons.mp hmem with rfl | hmem'
        · rw [hfold, ih6 nid' hnd1]
          cases hfn : findNode s nid' with
          | none => rfl
          | some n =>
            have hwn : n.wrapper = none := by
              rw [hfn] at hb
              simpa using hb
            show some n = some { n with wrapper := n.wrapper.map (fun _ => true) }
            rw [hwn]
            exact congrArg some (NodeRec_eta_wrapper n none hwn).symm
        · exact hfold ▸ ih7 nid' hmem'
    | some isLoaded =>
      cases hfn : findNode s nid with
      | none => rw [hfn] at hb; cases hb
      | some n =>
      have hwn : n.wrapper = some isLoaded := by
        rw [hfn] at hb
        simpa using hb
      cases isLoaded with
      | true =>
        have hstep : runLoadStep s nid = s := by
          unfold runLoadStep
          rw [hb]
          rfl
        have hfold : (nid :: ids).foldl runLoadStep s = ids.foldl runLoadStep s := by
          rw [List.foldl_cons, hstep]
        obtain ⟨ih1, ih2, ih3, ih4, ih5, ih6, ih7⟩ := ih s hnd2
        have hmark : hookMark s nid = none := by
          unfold hookMark
          rw [hb]
          rfl
        refine ⟨?_, ?_, ?_, ?_, ?_, ?_, ?_⟩
        · rw [hfold, ih1]
        · rw [hfold, ih2]
        · rw [hfold, ih3]
        · rw [hfold, ih4]
        · rw [hfold, ih5, List.filterMap_cons, hmark]
        · intro x hx
          exact hfold ▸ ih6 x (fun h => hx (List.mem_cons_of_mem nid h))
        · intro nid' hmem
          rcases List.mem_cons.mp hmem with rfl | hmem'
          · rw [hfold, ih6 nid' hnd1, hfn]
            show some n = some { n with wrapper := n.wrapper.map (fun _ => true) }
            rw [hwn]
            exact congrArg some (NodeRec_eta_wrapper n (some true) hwn).symm
          · exact hfold ▸ ih7 nid' hmem'
      | false =>
        have hwid : ∀ m : NodeRec, ({ m with wrapper := some true } : NodeRec).id = m.id :=
          fun m => rfl
        have hstep : runLoadStep s nid
            = { updateNode s nid (fun m => { m with wrapper := some true }) with
                log := (updateNode s nid (fun m => { m with wrapper := some true })).log
                  ++ [RegEv.hooked nid] } := by
          unfold runLoadStep
          rw [hb]
          rfl
        set s1 : RegState :=
          { updateNode s nid (fun m => { m with wrapper := some true }) with
            log := (updateNode s nid (fun m => { m with wrapper := some true })).log
              ++ [RegEv.hooked nid] } with hs1
        have hfold : (nid :: ids).foldl runLoadStep s = ids.foldl runLoadStep s1 := by
          rw [List.foldl_cons, hstep]
        have hfind1 : ∀ x, findNode s1 x
            = findNode (updateNode s nid (fun m => { m with wrapper := some true })) x := by
          intro x
          rfl
        have hfind_other : ∀ x, x ≠ nid → findNode s1 x = findNode s x := by
          intro x hx
          rw [hfind1 x]
          exact findNode_updateNode_other s nid x _ hwid hx
        have hfind_self : findNode s1 nid = some { n with wrapper := some true } := by
          rw [hfind1 nid]
          exact findNode_updateNode_self s nid _ hwid n hfn
        obtain ⟨ih1, ih2, ih3, ih4, ih5, ih6, ih7⟩ := ih s1 hnd2
        have hmark : hookMark s nid = some (RegEv.hooked nid) := by
          unfold hookMark
          rw [hb]
          rfl
        have hmark_congr : ids.filterMap (hookMark s1) = ids.filterMap (hookMark s) := by
          refine List.filterMap_congr ?_
          intro x hx
          have hne : x ≠ nid := fun he => hnd1 (he ▸ hx)
          unfold hookMark
          rw [hfind_other x hne]
        have hlog1 : s1.log = s.log ++ [RegEv.hooked nid] := rfl
        have hids1 : s1.nodes.map NodeRec.id = s.nodes.map NodeRec.id :=
          updateNode_ids s nid _ hwid
        refine ⟨?_, ?_, ?_, ?_, ?_, ?_, ?_⟩
        · rw [hfold, ih1]; rfl
        · rw [hfold, ih2]; rfl
        · rw [hfold, ih3]; rfl
        · rw [hfold, ih4, hids1]
        · rw [hfold, ih5, hmark_congr, hlog1, List.filterMap_cons, hmark,
              List.append_assoc]
          rfl
        · intro x hx
          have hx1 : x ∉ ids := fun h => hx (List.mem_cons_of_mem nid h)
          have hx2 : x ≠ nid := fun h => hx (h ▸ List.mem_cons_self nid ids)
          rw [hfold, ih6 x hx1, hfind_other x hx2]
        · intro nid' hmem
          rcases List.mem_cons.mp hmem with rfl | hmem'
          · rw [hfold, ih6 nid' hnd1, hfind_self, hfn]
            show some { n with wrapper := some true }
              = some { n with wrapper := n.wrapper.map (fun _ => true) }
            rw [hwn]
            rfl
          · have hne : nid' ≠ nid := fun he => hnd1 (he ▸ hmem')
            rw [hfold, ih7 nid' hmem', hfind_other nid' hne]

/-- The hook mark of a node that is found is decided by its wrapper. -/
theorem hookMark_of_found (s : RegState) (nid : Nat) (n : NodeRec)
    (h : findNode s nid = some n) :
    hookMark s nid
      = match n.wrapper with
        | some isLoaded => if isLoaded then none else some (RegEv.hooked nid)
        | none => none := by
  unfold hookMark
  rw [h]
  rfl

/-- Hook marks over a document whose per-node mark is decided by a
predicate reduce to the marked sublist. -/
theorem filterMap_hookMark (f : Nat → Option RegEv) (p : NodeRec → Bool)
    (g : NodeRec → RegEv) :
    ∀ l : List NodeRec, (∀ n ∈ l, f n.id = if p n then some (g n) else none) →
      (l.map (fun n => n.id)).filterMap f = (l.filter p).map g := by
  intro l
  induction l with
  | nil => intro _; rfl
  | cons a l ih =>
    intro h
    have ha := h a (List.mem_cons_self a l)
    have htl := fun n hn => h n (List.mem_cons_of_mem a hn)
    cases hp : p a with
    | true =>
      have ha' : f a.id = some (g a) := by
        rw [ha, hp]
        rfl
      rw [List.map_cons, List.filterMap_cons_some ha', List.filter_cons_of_pos hp,
          List.map_cons, ih htl]
    | false =>
      have ha' : f a.id = none := by
        rw [ha, hp]
        rfl
      rw [List.map_cons, List.filterMap_cons_none ha', List.filter_cons_of_neg (by simp [hp]),
          ih htl]

/-- C8: unregister/re-register round trip.  For a registered type `ty`
whose nodes are all wrapped, with a clean unknown set, the gate open, and
no other unloaded wrapped fragments: unregistering removes the type
mapping, fires `unload()` once per node of that type (in document order),
severs every such wrapper and records each underlying node as unknown
under `ty`; re-registering restores the mapping, empties the unknown set,
re-wraps each of those nodes — with id, declared type and raw text exactly
as before — and runs the load pass so the load hook of each fires exactly
once (in the same order), finishing loaded. -/
theorem unregister_reregister_roundtrip (st : RegState) (ty : String)
    (hty : ty ∈ st.fragmentTypes)
    (hnd : (st.nodes.map NodeRec.id).Nodup)
    (hw : ∀ n ∈ st.nodes, n.dataType = some ty → n.wrapper.isSome = true)
    (hu : st.unknown ty = [])
    (hai : st.allInstalledRun = true)
    (hl : ∀ n ∈ st.nodes, n.dataType ≠ some ty → n.wrapper ≠ some false) :
    (unRegisterFragmentType st ty).fragmentTypes.contains ty = false
    ∧ (unRegisterFragmentType st ty).log
        = st.log ++ ((st.nodes.filter (fun n => n.dataType == some ty)).map
            (fun n => n.id)).map RegEv.unloaded
    ∧ (∀ n ∈ st.nodes, n.dataType = some ty →
        (findNode (unRegisterFragmentType st ty) n.id).bind (fun m => m.wrapper) = none)
    ∧ (unRegisterFragmentType st ty).unknown ty
        = (st.nodes.filter (fun n => n.dataType == some ty)).map (fun n => n.id)
    ∧ (registerFragmentType (unRegisterFragmentType st ty) ty).fragmentTypes.contains ty
        = true
    ∧ (registerFragmentType (unRegisterFragmentType st ty) ty).unknown ty = []
    ∧ (∀ n ∈ st.nodes, n.dataType = some ty →
        findNode (registerFragmentType (unRegisterFragmentType st ty) ty) n.id
          = some { n with wrapper := some true })
    ∧ (registerFragmentType (unRegisterFragmentType st ty) ty).log
        = (unRegisterFragmentType st ty).log
          ++ ((st.nodes.filter (fun n => n.dataType == some ty)).map
              (fun n => n.id)).map RegEv.hooked := by
  have hwid0 : ∀ m : NodeRec, ({ m with wrapper := none } : NodeRec).id = m.id :=
    fun m => rfl
  set tN := st.nodes.filter (fun n => n.dataType == some ty) with htN
  set ids := tN.map (fun n => n.id) with hids
  set stF : RegState :=
    { st with fragmentTypes := st.fragmentTypes.filter (fun t => !(t == ty)) } with hstF
  have hdef1 : unRegisterFragmentType st ty = ids.foldl (unRegisterStep ty) stF := rfl
  have hmemT : ∀ nid ∈ ids, ∃ n, n ∈ st.nodes ∧ n.dataType = some ty ∧ n.id = nid := by
    intro nid hmem
    obtain ⟨n, hn, hnid⟩ := List.mem_map.mp hmem
    obtain ⟨hmemN, hp⟩ := List.mem_filter.mp hn
    exact ⟨n, hmemN, eq_of_beq hp, hnid⟩
  have hfindF : ∀ x, findNode stF x = findNode st x := fun _ => rfl
  have hidsnd : ids.Nodup := by
    refine List.Nodup.sublist ?_ hnd
    exact (List.filter_sublist st.nodes).map NodeRec.id
  have hu1 := unregLoop_spec ty ids stF
    (by
      intro nid hmem
      obtain ⟨n, hmemN, hdt, rfl⟩ := hmemT nid hmem
      rw [hfindF, findNode_of_mem st hnd n hmemN]
      exact ⟨n, rfl, hw n hmemN hdt⟩)
    hidsnd
    (by
      intro nid _ hin
      have : stF.unknown ty = [] := hu
      rw [this] at hin
      cases hin)
  obtain ⟨u1, u2, u3, u4, u5, u6, u7, u8⟩ := hu1
  set st1 := ids.foldl (unRegisterStep ty) stF with hst1
  have hfind1T : ∀ n ∈ st.nodes, n.dataType = some ty →
      findNode st1 n.id = some { n with wrapper := none } := by
    intro n hmemN hdt
    have hmem : n.id ∈ ids :=
      List.mem_map_of_mem _ (List.mem_filter.mpr ⟨hmemN, by simp [hdt]⟩)
    rw [u8 n.id hmem, hfindF, findNode_of_mem st hnd n hmemN]
    rfl
  have c1 : st1.fragmentTypes.contains ty = false := by
    have hnotmem : ty ∉ st1.fragmentTypes := by
      rw [u1]
      intro hmem
      have := (List.mem_filter.mp hmem).2
      simp at this
    by_cases hc : st1.fragmentTypes.contains ty = true
    · exact absurd (List.elem_iff.mp hc) hnotmem
    · simpa using hc
  have c2 : st1.log = st.log ++ ids.map RegEv.unloaded := u4
  have c3 : ∀ n ∈ st.nodes, n.dataType = some ty →
      (findNode st1 n.id).bind (fun m => m.wrapper) = none := by
    intro n hmemN hdt
    rw [hfind1T n hmemN hdt]
    rfl
  have c4 : st1.unknown ty = ids := by
    rw [u6]
    have : stF.unknown ty = [] := hu
    rw [this]
    rfl
  -- the re-registration
  have hreg : registerFragmentType st1 ty
      = loadUnknownFragments { st1 with fragmentTypes := st1.fragmentTypes ++ [ty] } ty := by
    unfold registerFragmentType
    rw [c1]
    rfl
  set stR : RegState := { st1 with fragmentTypes := st1.fragmentTypes ++ [ty] } with hstR
  have hRu : stR.unknown ty = ids := c4
  have hconR : stR.fragmentTypes.contains ty = true :=
    List.elem_iff.mpr (List.mem_append_right _ (List.mem_singleton.mpr rfl))
  have hrest : (registerFragmentType st1 ty).fragmentTypes.contains ty = true
      ∧ (registerFragmentType st1 ty).unknown ty = []
      ∧ (∀ n ∈ st.nodes, n.dataType = some ty →
          findNode (registerFragmentType st1 ty) n.id = some { n with wrapper := some true })
      ∧ (registerFragmentType st1 ty).log = st1.log ++ ids.map RegEv.hooked := by
    by_cases hids0 : ids = []
    · have hld : loadUnknownFragments stR ty = stR := by
        simp only [loadUnknownFragments]
        rw [show stR.unknown ty = [] from hRu.trans hids0]
        rfl
      refine ⟨?_, ?_, ?_, ?_⟩
      · rw [hreg, hld]
        exact hconR
      · rw [hreg, hld, hRu, hids0]
      · intro n hmemN hdt
        have hmem : n.id ∈ ids :=
          List.mem_map_of_mem _ (List.mem_filter.mpr ⟨hmemN, by simp [hdt]⟩)
        rw [hids0] at hmem
        cases hmem
      · rw [hreg, hld, hids0]
        show st1.log = st1.log ++ []
        rw [List.append_nil]
    · -- nonempty unknown set: setup every node, then run the load pass
      set stR1 : RegState :=
        { stR with unknown := fun s => if s == ty then [] else stR.unknown s } with hstR1
      have hempty : (stR.unknown ty).isEmpty = false := by
        rw [hRu]
        cases hcase : ids with
        | nil => exact absurd hcase hids0
        | cons a l => rfl
      have hld : loadUnknownFragments stR ty
          = runFragmentsLoadedSync ((stR.unknown ty).foldl setupStep stR1) := by
        simp only [loadUnknownFragments]
        rw [hempty]
        rfl
      have hfindR1 : ∀ x, findNode stR1 x = findNode st1 x := fun _ => rfl
      have hconR1 : stR1.fragmentTypes.contains ty = true := hconR
      have hsetup := setupLoop_spec ty ids stR1 hconR1
        (by
          intro nid hmem
          obtain ⟨n, hmemN, hdt, rfl⟩ := hmemT nid hmem
          rw [hfindR1, hfind1T n hmemN hdt]
          exact ⟨{ n with wrapper := none }, rfl, rfl, hdt⟩)
        hidsnd
      obtain ⟨v1, v2, v3, v4, v5, v6, v7⟩ := hsetup
      set stR2 := ids.foldl setupStep stR1 with hstR2
      have hfindR2T : ∀ n ∈ st.nodes, n.dataType = some ty →
          findNode stR2 n.id = some { n with wrapper := some false } := by
        intro n hmemN hdt
        have hmem : n.id ∈ ids :=
          List.mem_map_of_mem _ (List.mem_filter.mpr ⟨hmemN, by simp [hdt]⟩)
        rw [v7 n.id hmem, hfindR1, hfind1T n hmemN hdt]
        rfl
      have hmapR2 : stR2.nodes.map NodeRec.id = st.nodes.map NodeRec.id := by
        rw [v3]
        show st1.nodes.map NodeRec.id = st.nodes.map NodeRec.id
        exact u3
      have hmapR2' : stR2.nodes.map (fun n => n.id) = st.nodes.map (fun n => n.id) :=
        hmapR2
      have hgate2 : stR2.allInstalledRun = true := by
        rw [v2]
        show st1.allInstalledRun = true
        rw [u2]
        exact hai
      have hrun : runFragmentsLoadedSync stR2
          = (stR2.nodes.map (fun n => n.id)).foldl runLoadStep stR2 := by
        unfold runFragmentsLoadedSync
        rw [hgate2]
        rfl
      have hndAll : (stR2.nodes.map (fun n => n.id)).Nodup := by
        have h2 : (st.nodes.map (fun n => n.id)).Nodup := hnd
        exact hmapR2'.symm ▸ h2
      have hload := runLoop_spec (stR2.nodes.map (fun n => n.id)) stR2 hndAll
      obtain ⟨w1, w2, w3, w4, w5, w6, w7⟩ := hload
      have hst2 : registerFragmentType st1 ty
          = (stR2.nodes.map (fun n => n.id)).foldl runLoadStep stR2 := by
        rw [hreg, hld, hRu, ← hstR2, hrun]
      have hlogR2 : stR2.log = st1.log := by
        rw [v4]
      have hnotmem_ids : ∀ n ∈ st.nodes, n.dataType ≠ some ty → n.id ∉ ids := by
        intro n hmemN hdt hmem
        obtain ⟨m, hmemM, hdtM, hidM⟩ := hmemT n.id hmem
        have h1 : findNode st m.id = some m := findNode_of_mem st hnd m hmemM
        have h2 : findNode st n.id = some n := findNode_of_mem st hnd n hmemN
        rw [hidM] at h1
        rw [h1] at h2
        cases h2
        exact hdt hdtM
      have hfindR2_other : ∀ n ∈ st.nodes, n.dataType ≠ some ty →
          findNode stR2 n.id = some n := by
        intro n hmemN hdt
        rw [v6 n.id (hnotmem_ids n hmemN hdt), hfindR1,
            show findNode st1 n.id = findNode stF n.id from
              u7 n.id (hnotmem_ids n hmemN hdt), hfindF]
        exact findNode_of_mem st hnd n hmemN
      have hpoint : ∀ n ∈ st.nodes, hookMark stR2 n.id
          = if (n.dataType == some ty) then some (RegEv.hooked n.id) else none := by
        intro n hmemN
        cases hp : (n.dataType == some ty) with
        | true =>
          have hdt : n.dataType = some ty := eq_of_beq hp
          rw [hookMark_of_found stR2 n.id _ (hfindR2T n hmemN hdt)]
          rfl
        | false =>
          have hdt : n.dataType ≠ some ty := by
            intro he
            rw [he] at hp
            simp at hp
          rw [hookMark_of_found stR2 n.id n (hfindR2_other n hmemN hdt)]
          cases hnw : n.wrapper with
          | none => rfl
          | some b =>
            cases b with
            | true => rfl
            | false => exact absurd hnw (hl n hmemN hdt)
      refine ⟨?_, ?_, ?_, ?_⟩
      · rw [hst2, w1, v1]
        exact hconR
      · rw [hst2]
        show ((stR2.nodes.map (fun n => n.id)).foldl runLoadStep stR2).unknown ty = []
        rw [w3, v5]
        show (if (ty == ty) then [] else stR.unknown ty) = []
        simp
      · intro n hmemN hdt
        have hmemAll : n.id ∈ stR2.nodes.map (fun k => k.id) := by
          rw [hmapR2']
          exact List.mem_map_of_mem _ hmemN
        rw [hst2, w7 n.id hmemAll, hfindR2T n hmemN hdt]
        rfl
      · rw [hst2, w5, hlogR2, hmapR2',
            filterMap_hookMark (hookMark stR2) (fun n => n.dataType == some ty)
              (fun n => RegEv.hooked n.id) st.nodes hpoint]
        show st1.log ++ tN.map (fun n => RegEv.hooked n.id)
          = st1.log ++ (tN.map (fun n => n.id)).map RegEv.hooked
        rw [List.map_map]
        rfl
  exact ⟨c1, c2, c3, c4, hrest.1, hrest.2.1, hrest.2.2.1, hrest.2.2.2⟩

/-- Witness for C8 on a one-node registry of type `"text/x"` with raw
`"hi"`: the round trip unloads the node into the unknown set and
re-registering re-wraps it (raw unchanged) and fires its hook once. -/
theorem unregister_reregister_roundtrip_witness :
    (unRegisterFragmentType regA "text/x").unknown "text/x" = [3]
    ∧ (registerFragmentType (unRegisterFragmentType regA "text/x") "text/x").log
        = (unRegisterFragmentType regA "text/x").log ++ [RegEv.hooked 3] :=
  ⟨(unregister_reregister_roundtrip regA "text/x" (by decide) (by decide)
      (by decide) rfl rfl (by decide)).2.2.2.1,
   (unregister_reregister_roundtrip regA "text/x" (by decide) (by decide)
      (by decide) rfl rfl (by decide)).2.2.2.2.2.2.2⟩

/-- Hook entries distribute over task-list concatenation. -/
theorem hookTasksL_append (l₁ l₂ : List Task) :
    hookTasksL (l₁ ++ l₂) = hookTasksL l₁ ++ hookTasksL l₂ :=
  List.filterMap_append ..

/-- A pending invocation contributes no hook entry. -/
theorem hookTasksL_cons_start (l : List Task) :
    hookTasksL (Task.start :: l) = hookTasksL l := rfl

/-- A parked invocation contributes no hook entry. -/
theorem hookTasksL_cons_waiting (l : List Task) :
    hookTasksL (Task.waiting :: l) = hookTasksL l := rfl

/-- A finished invocation contributes no hook entry. -/
theorem hookTasksL_cons_done (l : List Task) :
    hookTasksL (Task.done :: l) = hookTasksL l := rfl

/-- An invocation inside a hook contributes its entry. -/
theorem hookTasksL_cons_inHook (id : Nat) (rest : List Nat) (l : List Task) :
    hookTasksL (Task.inHook id rest :: l) = (id, rest) :: hookTasksL l := rfl

/-- A list that is empty or a singleton and contains an explicit middle
element has nothing around it. -/
theorem single_split {α : Type} (A B : List α) (x : α)
    (h : A ++ x :: B = [] ∨ ∃ p, A ++ x :: B = [p]) : A = [] ∧ B = [] := by
  rcases h with h | ⟨p, h⟩
  · exact absurd h (by simp)
  · cases A with
    | nil =>
      simp only [List.nil_append, List.cons.injEq] at h
      exact ⟨rfl, h.2⟩
    | cons a A' =>
      simp only [List.cons_append, List.cons.injEq] at h
      exact absurd h.2 (by simp)

/-- Hook-start counts add over log concatenation. -/
theorem sc_append (l₁ l₂ : List LEv) (id : Nat) :
    sc (l₁ ++ l₂) id = sc l₁ id + sc l₂ id :=
  List.count_append ..

/-- Hook-end counts add over log concatenation. -/
theorem ec_append (l₁ l₂ : List LEv) (id : Nat) :
    ec (l₁ ++ l₂) id = ec l₁ id + ec l₂ id :=
  List.count_append ..

/-- A hook-start event counts once for its own id. -/
theorem sc_single_start_self (id : Nat) : sc [LEv.hookStart id] id = 1 := by
  simp [sc]

/-- A hook-start event does not count for another id. -/
theorem sc_single_start_ne (j id : Nat) (h : j ≠ id) : sc [LEv.hookStart j] id = 0 := by
  simp [sc, List.count_cons, h]

/-- A hook-end event never counts as a start. -/
theorem sc_single_end (j id : Nat) : sc [LEv.hookEnd j] id = 0 := by
  simp [sc, List.count_cons]

/-- The install event never counts as a start. -/
theorem sc_single_installed (id : Nat) : sc [LEv.installed] id = 0 := by
  simp [sc, List.count_cons]

/-- A hook-end event counts once for its own id. -/
theorem ec_single_end_self (id : Nat) : ec [LEv.hookEnd id] id = 1 := by
  simp [ec]

/-- A hook-end event does not count for another id. -/
theorem ec_single_end_ne (j id : Nat) (h : j ≠ id) : ec [LEv.hookEnd j] id = 0 := by
  simp [ec, List.count_cons, h]

/-- A hook-start event never counts as an end. -/
theorem ec_single_start (j id : Nat) : ec [LEv.hookStart j] id = 0 := by
  simp [ec, List.count_cons]

/-- The install event never counts as an end. -/
theorem ec_single_installed (id : Nat) : ec [LEv.installed] id = 0 := by
  simp [ec, List.count_cons]

/-- Membership transport out of a one-position replacement. -/
theorem mem_of_mem_replace (pre post : List Task) (t t' x : Task)
    (hx : x ∈ pre ++ t' :: post) (hne : x ≠ t') : x ∈ pre ++ t :: post := by
  rcases List.mem_append.mp hx with h | h
  · exact List.mem_append_left _ h
  · rcases List.mem_cons.mp h with h | h
    · exact absurd h hne
    · exact List.mem_append_right _ (List.mem_cons_of_mem t h)

/-- A fragment selected by the load filter was unmarked. -/
theorem unloadedOf_mem_loaded (frags : List Nat) (s : Sched) (x : Nat)
    (h : x ∈ unloadedOf frags s) : s.loaded x = false := by
  have := (List.mem_filter.mp h).2
  simpa using this

/-- The load filter preserves distinctness. -/
theorem unloadedOf_nodup (frags : List Nat) (s : Sched) (hfr : frags.Nodup) :
    (unloadedOf frags s).Nodup :=
  hfr.filter _

/-- After the filter's side effect, every visited fragment is marked. -/
theorem markAll_mem (frags : List Nat) (s : Sched) (x : Nat)
    (h : x ∈ unloadedOf frags s) : markAll frags s x = true := by
  simp only [markAll, Bool.or_eq_true]
  right
  exact List.elem_iff.mpr h

/-- A fragment still unmarked after the filter was unmarked before and was
not visited. -/
theorem markAll_false (frags : List Nat) (s : Sched) (x : Nat)
    (h : markAll frags s x = false) : s.loaded x = false ∧ x ∉ unloadedOf frags s := by
  simp only [markAll, Bool.or_eq_false_iff] at h
  refine ⟨h.1, ?_⟩
  intro hmem
  have h1 : (unloadedOf frags s).contains x = true := List.elem_iff.mpr hmem
  rw [h.2] at h1
  exact Bool.false_ne_true h1

/-- The scheduler invariant holds at startup. -/
theorem schedInv_init : SchedInv initSched := by
  refine ⟨Or.inl rfl, fun _ => rfl, ?_, ?_, ?_, ?_, ?_, ?_, ?_, ?_⟩
  · intro id rest h
    cases h
  · intro id rest h
    cases h
  · intro id rest h
    cases h
  · intro id _
    rfl
  · intro id
    exact Nat.zero_le 1
  · intro id _
    rfl
  · intro _
    exact ⟨fun _ => rfl, rfl⟩
  · intro h
    exact absurd h (by decide)

/-- The invariant only depends on the tasks through their hook entries and
the waiting-gate. -/
theorem schedInv_congr_tasks (s : Sched) (ts : List Task) (hinv : SchedInv s)
    (hL : hookTasksL ts = hookTasksL s.tasks)
    (hwait : Task.waiting ∈ ts → s.allInstalled = true) :
    SchedInv { s with tasks := ts } := by
  refine ⟨?_, ?_, ?_, ?_, ?_, ?_, hinv.scOnce, hinv.notLoadedNoStart, ?_, hwait⟩
  · show hookTasksL ts = [] ∨ _
    rw [hL]
    exact hinv.mutex
  · intro h
    show hookTasksL ts = []
    rw [hL]
    exact hinv.notLoading h
  · intro id rest hm
    rw [show hookTasksL ({ s with tasks := ts } : Sched).tasks = hookTasksL s.tasks
      from hL] at hm
    exact hinv.activeHead id rest hm
  · intro id rest hm
    rw [show hookTasksL ({ s with tasks := ts } : Sched).tasks = hookTasksL s.tasks
      from hL] at hm
    exact hinv.activeRest id rest hm
  · intro id rest hm
    rw [show hookTasksL ({ s with tasks := ts } : Sched).tasks = hookTasksL s.tasks
      from hL] at hm
    exact hinv.activeNodup id rest hm
  · intro x hx
    refine hinv.balanced x ?_
    intro p hp
    refine hx p ?_
    show p ∈ hookTasksL ts
    rw [hL]
    exact hp
  · intro h
    refine ⟨(hinv.gateClosed h).1, ?_⟩
    show hookTasksL ts = []
    rw [hL]
    exact (hinv.gateClosed h).2

/-- Splitting the hook entries of a one-position decomposition whose
middle element carries no entry. -/
theorem hookTasksL_split_none (pre post : List Task) (t0 : Task)
    (ht0 : hookTasksL [t0] = []) :
    hookTasksL (pre ++ t0 :: post) = hookTasksL pre ++ hookTasksL post := by
  rw [show t0 :: post = [t0] ++ post from rfl, hookTasksL_append, hookTasksL_append, ht0,
      List.nil_append]

/-- An acquire step that finds nothing to load: release at once and
return. -/
theorem schedInv_acquireEmpty (frags : List Nat) (s : Sched) (pre post : List Task)
    (t0 : Task) (hts : s.tasks = pre ++ t0 :: post) (ht0 : hookTasksL [t0] = [])
    (hcl : s.currentlyLoading = false) (hgate : s.allInstalled = true)
    (hinv : SchedInv s) :
    SchedInv { s with loaded := markAll frags s, tasks := pre ++ Task.done :: post } := by
  have hempty : hookTasksL s.tasks = [] := hinv.notLoading hcl
  have hsplit : hookTasksL pre = [] ∧ hookTasksL post = [] := by
    rw [hts, hookTasksL_split_none pre post t0 ht0] at hempty
    exact List.append_eq_nil.mp hempty
  have hnew : hookTasksL (pre ++ Task.done :: post) = [] := by
    rw [hookTasksL_split_none pre post Task.done rfl, hsplit.1, hsplit.2]
    rfl
  refine ⟨Or.inl hnew, fun _ => hnew, ?_, ?_, ?_, ?_, hinv.scOnce, ?_, ?_, fun _ => hgate⟩
  · intro id rest hm
    rw [show hookTasksL (pre ++ Task.done :: post) = [] from hnew] at hm
    cases hm
  · intro id rest hm
    rw [show hookTasksL (pre ++ Task.done :: post) = [] from hnew] at hm
    cases hm
  · intro id rest hm
    rw [show hookTasksL (pre ++ Task.done :: post) = [] from hnew] at hm
    cases hm
  · intro x _
    refine hinv.balanced x ?_
    intro p hp
    rw [hempty] at hp
    cases hp
  · intro x hx
    exact hinv.notLoadedNoStart x (markAll_false frags s x hx).1
  · intro h
    rw [hgate] at h
    cases h

/-- An acquire step that finds unloaded fragments: mark them all, take the
lock and enter the first hook. -/
theorem schedInv_acquireRun (frags : List Nat) (hfr : frags.Nodup) (s : Sched)
    (pre post : List Task) (t0 : Task) (id : Nat) (rest : List Nat)
    (hts : s.tasks = pre ++ t0 :: post) (ht0 : hookTasksL [t0] = [])
    (hcl : s.currentlyLoading = false) (hus : unloadedOf frags s = id :: rest)
    (hgate : s.allInstalled = true) (hinv : SchedInv s) :
    SchedInv { s with
               loaded := markAll frags s
               currentlyLoading := true
               tasks := pre ++ Task.inHook id rest :: post
               log := s.log ++ [LEv.hookStart id] } := by
  have hempty : hookTasksL s.tasks = [] := hinv.notLoading hcl
  have hsplit : hookTasksL pre = [] ∧ hookTasksL post = [] := by
    rw [hts, hookTasksL_split_none pre post t0 ht0] at hempty
    exact List.append_eq_nil.mp hempty
  have hnew : hookTasksL (pre ++ Task.inHook id rest :: post) = [(id, rest)] := by
    rw [show Task.inHook id rest :: post = [Task.inHook id rest] ++ post from rfl,
        hookTasksL_append, hookTasksL_append, hsplit.1, hsplit.2]
    rfl
  have hnodup : (id :: rest).Nodup := by
    rw [← hus]
    exact unloadedOf_nodup frags s hfr
  have hbal0 : ∀ x, sc s.log x = ec s.log x := by
    intro x
    refine hinv.balanced x ?_
    intro p hp
    rw [hempty] at hp
    cases hp
  have hmemid : id ∈ unloadedOf frags s := by
    rw [hus]
    exact List.mem_cons_self id rest
  have hmemrest : ∀ j ∈ rest, j ∈ unloadedOf frags s := by
    intro j hj
    rw [hus]
    exact List.mem_cons_of_mem id hj
  have hsc0 : ∀ x ∈ unloadedOf frags s, sc s.log x = 0 := fun x hx =>
    hinv.notLoadedNoStart x (unloadedOf_mem_loaded frags s x hx)
  have hidrest : id ∉ rest := (List.nodup_cons.mp hnodup).1
  refine ⟨Or.inr ⟨(id, rest), hnew⟩, ?_, ?_, ?_, ?_, ?_, ?_, ?_, ?_, fun _ => hgate⟩
  · intro h
    cases h
  · intro id' rest' hm
    rw [show hookTasksL (pre ++ Task.inHook id rest :: post) = [(id, rest)] from hnew] at hm
    have he := List.mem_singleton.mp hm
    injection he with h1 h2
    subst h1
    subst h2
    constructor
    · rw [sc_append, ec_append, sc_single_start_self, ec_single_start,
        hsc0 id' hmemid, ← hbal0 id', hsc0 id' hmemid]
    · exact markAll_mem frags s id' hmemid
  · intro id' rest' hm j hj
    rw [show hookTasksL (pre ++ Task.inHook id rest :: post) = [(id, rest)] from hnew] at hm
    have he := List.mem_singleton.mp hm
    injection he with h1 h2
    subst h1
    subst h2
    have hjne : j ≠ id' := fun he' => hidrest (he' ▸ hj)
    refine ⟨?_, ?_, markAll_mem frags s j (hmemrest j hj)⟩
    · rw [sc_append, sc_single_start_ne id' j (fun he' => hjne he'.symm),
        hsc0 j (hmemrest j hj)]
    · rw [ec_append, ec_single_start, ← hbal0 j, hsc0 j (hmemrest j hj)]
  · intro id' rest' hm
    rw [show hookTasksL (pre ++ Task.inHook id rest :: post) = [(id, rest)] from hnew] at hm
    have he := List.mem_singleton.mp hm
    injection he with h1 h2
    subst h1
    subst h2
    exact hnodup
  · intro x hx
    have hxid : id ≠ x := hx (id, rest) (by rw [hnew]; exact List.mem_singleton.mpr rfl)
    rw [sc_append, ec_append, sc_single_start_ne id x hxid, ec_single_start, hbal0 x]
  · intro x
    by_cases hxid : x = id
    · subst hxid
      rw [sc_append, sc_single_start_self, hsc0 x hmemid]
    · rw [sc_append, sc_single_start_ne id x (fun he => hxid he.symm)]
      have := hinv.scOnce x
      omega
  · intro x hx
    obtain ⟨hxl, hxnm⟩ := markAll_false frags s x hx
    have hxid : id ≠ x := fun he => hxnm (he ▸ hmemid)
    rw [sc_append, sc_single_start_ne id x hxid, hinv.notLoadedNoStart x hxl]
  · intro h
    rw [hgate] at h
    cases h

/-- Start counts over a two-event log split per event. -/
theorem sc_pair (a b : LEv) (x : Nat) : sc [a, b] x = sc [a] x + sc [b] x :=
  sc_append [a] [b] x

/-- End counts over a two-event log split per event. -/
theorem ec_pair (a b : LEv) (x : Nat) : ec [a, b] x = ec [a] x + ec [b] x :=
  ec_append [a] [b] x

/-- Every step of the cooperative system preserves the scheduler
invariant. -/
theorem schedInv_step (frags : List Nat) (hfr : frags.Nodup) (s s' : Sched)
    (hstep : Step frags s s') (hinv : SchedInv s) : SchedInv s' := by
  cases hstep with
  | spawn =>
    refine schedInv_congr_tasks s (s.tasks ++ [Task.start]) hinv ?_ ?_
    · rw [hookTasksL_append, show hookTasksL [Task.start] = [] from rfl, List.append_nil]
    · intro h
      rcases List.mem_append.mp h with h | h
      · exact hinv.waitingGate h
      · exact absurd (List.mem_singleton.mp h) (by decide)
  | install h =>
    have hL' : hookTasksL (s.tasks ++ [Task.start]) = hookTasksL s.tasks := by
      rw [hookTasksL_append, show hookTasksL [Task.start] = [] from rfl, List.append_nil]
    have hsc : ∀ x, sc (s.log ++ [LEv.installed]) x = sc s.log x := by
      intro x
      rw [sc_append, sc_single_installed, Nat.add_zero]
    have hec : ∀ x, ec (s.log ++ [LEv.installed]) x = ec s.log x := by
      intro x
      rw [ec_append, ec_single_installed, Nat.add_zero]
    refine ⟨?_, ?_, ?_, ?_, ?_, ?_, ?_, ?_, ?_, fun _ => rfl⟩
    · show hookTasksL (s.tasks ++ [Task.start]) = [] ∨ _
      rw [hL']
      exact hinv.mutex
    · intro hc
      show hookTasksL (s.tasks ++ [Task.start]) = []
      rw [hL']
      exact hinv.notLoading hc
    · intro id rest hm
      rw [show hookTasksL (s.tasks ++ [Task.start]) = hookTasksL s.tasks from hL'] at hm
      rw [hsc, hec]
      exact hinv.activeHead id rest hm
    · intro id rest hm j hj
      rw [show hookTasksL (s.tasks ++ [Task.start]) = hookTasksL s.tasks from hL'] at hm
      rw [hsc, hec]
      exact hinv.activeRest id rest hm j hj
    · intro id rest hm
      rw [show hookTasksL (s.tasks ++ [Task.start]) = hookTasksL s.tasks from hL'] at hm
      exact hinv.activeNodup id rest hm
    · intro x hx
      rw [hsc, hec]
      refine hinv.balanced x ?_
      intro p hp
      refine hx p ?_
      show p ∈ hookTasksL (s.tasks ++ [Task.start])
      rw [hL']
      exact hp
    · intro x
      rw [hsc]
      exact hinv.scOnce x
    · intro x hx
      rw [hsc]
      exact hinv.notLoadedNoStart x hx
    · intro hcon
      exact Bool.noConfusion hcon
  | startGateClosed pre post hts h =>
    refine schedInv_congr_tasks s (pre ++ Task.done :: post) hinv ?_ ?_
    · rw [hookTasksL_split_none pre post Task.done rfl, hts,
        hookTasksL_split_none pre post Task.start rfl]
    · intro hm
      refine hinv.waitingGate ?_
      rw [hts]
      exact mem_of_mem_replace pre post Task.start Task.done Task.waiting hm (by decide)
  | startBusy pre post hts hai hcl =>
    refine schedInv_congr_tasks s (pre ++ Task.waiting :: post) hinv ?_ (fun _ => hai)
    · rw [hookTasksL_split_none pre post Task.waiting rfl, hts,
        hookTasksL_split_none pre post Task.start rfl]
  | startAcquireEmpty pre post hts hai hcl hus =>
    exact schedInv_acquireEmpty frags s pre post Task.start hts rfl hcl hai hinv
  | startAcquireRun pre post id rest hts hai hcl hus =>
    exact schedInv_acquireRun frags hfr s pre post Task.start id rest hts rfl hcl hus hai hinv
  | waitBusy pre post hts hcl =>
    exact hinv
  | waitAcquireEmpty pre post hts hcl hus =>
    have hgate : s.allInstalled = true := by
      refine hinv.waitingGate ?_
      rw [hts]
      exact List.mem_append_right _ (List.mem_cons_self ..)
    exact schedInv_acquireEmpty frags s pre post Task.waiting hts rfl hcl hgate hinv
  | waitAcquireRun pre post id rest hts hcl hus =>
    have hgate : s.allInstalled = true := by
      refine hinv.waitingGate ?_
      rw [hts]
      exact List.mem_append_right _ (List.mem_cons_self ..)
    exact schedInv_acquireRun frags hfr s pre post Task.waiting id rest hts rfl hcl hus
      hgate hinv
  | hookFinishLast pre post id hts =>
    have hdec : hookTasksL s.tasks = hookTasksL pre ++ (id, []) :: hookTasksL post := by
      rw [hts, show Task.inHook id [] :: post = [Task.inHook id []] ++ post from rfl,
        hookTasksL_append, hookTasksL_append]
      rfl
    have hmix := hinv.mutex
    rw [hdec] at hmix
    have hsp := single_split (hookTasksL pre) (hookTasksL post) (id, []) hmix
    have hsing : hookTasksL s.tasks = [(id, [])] := by
      rw [hdec, hsp.1, hsp.2]
      rfl
    have hmemH : (id, ([] : List Nat)) ∈ hookTasksL s.tasks := by
      rw [hsing]
      exact List.mem_singleton.mpr rfl
    have hnew : hookTasksL (pre ++ Task.done :: post) = [] := by
      rw [hookTasksL_split_none pre post Task.done rfl, hsp.1, hsp.2]
      rfl
    have hAH := hinv.activeHead id [] hmemH
    refine ⟨Or.inl hnew, fun _ => hnew, ?_, ?_, ?_, ?_, ?_, ?_, ?_, ?_⟩
    · intro id' rest' hm
      rw [show hookTasksL (pre ++ Task.done :: post) = [] from hnew] at hm
      cases hm
    · intro id' rest' hm
      rw [show hookTasksL (pre ++ Task.done :: post) = [] from hnew] at hm
      cases hm
    · intro id' rest' hm
      rw [show hookTasksL (pre ++ Task.done :: post) = [] from hnew] at hm
      cases hm
    · intro x _
      by_cases hx : x = id
      · subst hx
        rw [sc_append, sc_single_end, ec_append, ec_single_end_self]
        omega
      · rw [sc_append, sc_single_end, ec_append, ec_single_end_ne id x (fun he => hx he.symm)]
        have hb := hinv.balanced x (by
          intro p hp
          rw [hsing] at hp
          have := List.mem_singleton.mp hp
          subst this
          exact fun he => hx he.symm)
        omega
    · intro x
      rw [sc_append, sc_single_end]
      have := hinv.scOnce x
      omega
    · intro x hx
      rw [sc_append, sc_single_end]
      have := hinv.notLoadedNoStart x hx
      omega
    · intro hcon
      have := (hinv.gateClosed hcon).2
      rw [this] at hmemH
      cases hmemH
    · intro hm
      refine hinv.waitingGate ?_
      rw [hts]
      exact mem_of_mem_replace pre post (Task.inHook id []) Task.done Task.waiting hm
        (by intro hq; cases hq)
  | hookFinishNext pre post id id2 rest hts =>
    have hdec : hookTasksL s.tasks
        = hookTasksL pre ++ (id, id2 :: rest) :: hookTasksL post := by
      rw [hts,
        show Task.inHook id (id2 :: rest) :: post = [Task.inHook id (id2 :: rest)] ++ post
          from rfl,
        hookTasksL_append, hookTasksL_append]
      rfl
    have hmix := hinv.mutex
    rw [hdec] at hmix
    have hsp := single_split (hookTasksL pre) (hookTasksL post) (id, id2 :: rest) hmix
    have hsing : hookTasksL s.tasks = [(id, id2 :: rest)] := by
      rw [hdec, hsp.1, hsp.2]
      rfl
    have hmemH : (id, id2 :: rest) ∈ hookTasksL s.tasks := by
      rw [hsing]
      exact List.mem_singleton.mpr rfl
    have hnew : hookTasksL (pre ++ Task.inHook id2 rest :: post) = [(id2, rest)] := by
      rw [show Task.inHook id2 rest :: post = [Task.inHook id2 rest] ++ post from rfl,
        hookTasksL_append, hookTasksL_append, hsp.1, hsp.2]
      rfl
    have hAH := hinv.activeHead id (id2 :: rest) hmemH
    have hAR := hinv.activeRest id (id2 :: rest) hmemH
    have hND := hinv.activeNodup id (id2 :: rest) hmemH
    have hid_notin : id ∉ id2 :: rest := (List.nodup_cons.mp hND).1
    have hid2_notin : id2 ∉ rest := (List.nodup_cons.mp (List.nodup_cons.mp hND).2).1
    have hne12 : id ≠ id2 := fun he => hid_notin (he ▸ List.mem_cons_self id2 rest)
    have hcl : s.currentlyLoading = true := by
      by_cases hc : s.currentlyLoading = true
      · exact hc
      · have hc' : s.currentlyLoading = false := by
          cases hcc : s.currentlyLoading
          · rfl
          · exact absurd hcc hc
        have := hinv.notLoading hc'
        rw [hsing] at this
        exact absurd this (by simp)
    have hsc2 : sc s.log id2 = 0 := (hAR id2 (List.mem_cons_self id2 rest)).1
    have hec2 : ec s.log id2 = 0 := (hAR id2 (List.mem_cons_self id2 rest)).2.1
    refine ⟨Or.inr ⟨(id2, rest), hnew⟩, ?_, ?_, ?_, ?_, ?_, ?_, ?_, ?_, ?_⟩
    · intro hc
      have hc' : s.currentlyLoading = false := hc
      rw [hcl] at hc'
      cases hc'
    · intro id' rest' hm
      rw [show hookTasksL (pre ++ Task.inHook id2 rest :: post) = [(id2, rest)]
        from hnew] at hm
      have he := List.mem_singleton.mp hm
      injection he with h1 h2
      subst h1
      subst h2
      refine ⟨?_, (hAR id' (List.mem_cons_self id' rest')).2.2⟩
      rw [sc_append, ec_append, sc_pair, ec_pair, sc_single_end,
        sc_single_start_self, ec_single_end_ne id id' hne12, ec_single_start]
      rw [hsc2, hec2]
    · intro id' rest' hm j hj
      rw [show hookTasksL (pre ++ Task.inHook id2 rest :: post) = [(id2, rest)]
        from hnew] at hm
      have he := List.mem_singleton.mp hm
      injection he with h1 h2
      subst h1
      subst h2
      have hjmem : j ∈ id' :: rest' := List.mem_cons_of_mem id' hj
      have hjne2 : j ≠ id' := fun he' => hid2_notin (he' ▸ hj)
      have hjne1 : j ≠ id := fun he' => hid_notin (he' ▸ hjmem)
      refine ⟨?_, ?_, (hAR j hjmem).2.2⟩
      · rw [sc_append, sc_pair, sc_single_end,
          sc_single_start_ne id' j (fun he' => hjne2 he'.symm), (hAR j hjmem).1]
      · rw [ec_append, ec_pair, ec_single_start,
          ec_single_end_ne id j (fun he' => hjne1 he'.symm), (hAR j hjmem).2.1]
    · intro id' rest' hm
      rw [show hookTasksL (pre ++ Task.inHook id2 rest :: post) = [(id2, rest)]
        from hnew] at hm
      have he := List.mem_singleton.mp hm
      injection he with h1 h2
      subst h1
      subst h2
      exact (List.nodup_cons.mp hND).2
    · intro x hx
      have hxne2 : id2 ≠ x :=
        hx (id2, rest) (by rw [hnew]; exact List.mem_singleton.mpr rfl)
      by_cases hxid : x = id
      · subst hxid
        rw [sc_append, ec_append, sc_pair, ec_pair, sc_single_end,
          sc_single_start_ne id2 x hxne2, ec_single_end_self, ec_single_start]
        omega
      · rw [sc_append, ec_append, sc_pair, ec_pair, sc_single_end,
          sc_single_start_ne id2 x hxne2, ec_single_start,
          ec_single_end_ne id x (fun he => hxid he.symm)]
        have hb := hinv.balanced x (by
          intro p hp
          rw [hsing] at hp
          have := List.mem_singleton.mp hp
          subst this
          exact fun he => hxid he.symm)
        omega
    · intro x
      by_cases hx2 : x = id2
      · subst hx2
        rw [sc_append, sc_pair, sc_single_end, sc_single_start_self, hsc2]
      · rw [sc_append, sc_pair, sc_single_end,
          sc_single_start_ne id2 x (fun he => hx2 he.symm)]
        have := hinv.scOnce x
        omega
    · intro x hx
      have hx2 : x ≠ id2 := by
        intro he
        subst he
        rw [(hAR x (List.mem_cons_self x rest)).2.2] at hx
        cases hx
      rw [sc_append, sc_pair, sc_single_end,
        sc_single_start_ne id2 x (fun he => hx2 he.symm),
        hinv.notLoadedNoStart x hx]
    · intro hcon
      have := (hinv.gateClosed hcon).2
      rw [this] at hmemH
      cases hmemH
    · intro hm
      refine hinv.waitingGate ?_
      rw [hts]
      exact mem_of_mem_replace pre post (Task.inHook id (id2 :: rest))
        (Task.inHook id2 rest) Task.waiting hm (by intro hq; cases hq)

/-- The scheduler invariant holds in every reachable state. -/
theorem schedInv_reachable (frags : List Nat) (hfr : frags.Nodup) (s : Sched)
    (h : Reachable frags s) : SchedInv s := by
  unfold Reachable at h
  induction h with
  | refl => exact schedInv_init
  | tail hsteps hstep ih => exact schedInv_step frags hfr _ _ hstep ih

/-- C7: in every state reachable under any interleaving of discovery
batches, the install signal and hook completions: (i) each fragment's
`onFragmentsLoaded` hook has started at most once over its lifetime (the
loaded flag is checked and set in the same synchronous segment as the
lock acquisition); (ii) before the one-shot `allInstalled` signal no hook
has ever started; (iii) hooks never interleave — at any moment at most one
fragment has a started-but-unfinished hook, so each hook is awaited to
completion before the next begins. -/
theorem runFragmentsLoaded_serialized (frags : List Nat) (hfr : frags.Nodup)
    (s : Sched) (hre : Reachable frags s) :
    (∀ id, sc s.log id ≤ 1)
    ∧ (s.allInstalled = false → ∀ id, sc s.log id = 0)
    ∧ (∀ id j, ec s.log id < sc s.log id → ec s.log j < sc s.log j → id = j) := by
  have hinv := schedInv_reachable frags hfr s hre
  refine ⟨hinv.scOnce, fun h => (hinv.gateClosed h).1, ?_⟩
  intro id j hid hj
  have hhead : ∀ k, ec s.log k < sc s.log k → ∃ rest, (k, rest) ∈ hookTasksL s.tasks := by
    intro k hk
    by_contra hcon
    push_neg at hcon
    have hb : sc s.log k = ec s.log k := by
      refine hinv.balanced k ?_
      intro p hp hpk
      have hp' : (p.1, p.2) ∈ hookTasksL s.tasks := by rw [Prod.mk.eta]; exact hp
      rw [hpk] at hp'
      exact hcon p.2 hp'
    omega
  obtain ⟨r1, h1⟩ := hhead id hid
  obtain ⟨r2, h2⟩ := hhead j hj
  rcases hinv.mutex with hm | ⟨p, hm⟩
  · rw [hm] at h1
    cases h1
  · rw [hm] at h1 h2
    have e1 := List.mem_singleton.mp h1
    have e2 := List.mem_singleton.mp h2
    rw [← e2] at e1
    exact congrArg Prod.fst e1

/-- Witness for C7 at the startup state (reachable by the empty
schedule): no hook has started. -/
theorem runFragmentsLoaded_serialized_witness :
    sc initSched.log 0 ≤ 1 :=
  (runFragmentsLoaded_serialized [0, 1] (by decide) initSched
    Relation.ReflTransGen.refl).1 0
